import Mathlib

/-!
Verification development for the git-ew email-threading core.

The Lean definitions below are a shallow embedding of the Python sources:

* `src/git_ew/_internal/thread_utils.py` - reply-forest construction
  (`build_thread_tree`), flattening flags and the flat rendering projection
  (`thread_to_flat_list`);
* `src/git_ew/_internal/email_parser.py` - `ParsedEmail.get_thread_id`,
  `parse_email` (header defaults, date fallback, body extraction, patch
  detection) and `extract_quoted_text`;
* `src/git_ew/_internal/mailing_lists/zsh_workers/ingest.py` - the header
  accessors and the per-message ingestion step of `ingest_archive`
  (deduplication, thread lookup, missing-root repair, thread creation).

Python strings are modelled as Lean `String`/`List Char`; `None`-able strings
as `Option String`, with Python truthiness (both `None` and `""` are falsy)
made explicit where the source relies on it.  Mutating loops are modelled as
pure recursive functions; the node graph that `build_thread_tree` wires up by
mutation is represented by its adjacency (`childrenOf`) and its root list
(`rootsOf`), with fuelled traversals standing in for the recursive walks.
-/

namespace GitEw

/-! ## Basic string helpers (Python `str` operations used by the sources) -/

/-- Python truthiness of an optional string: `None` and `""` are falsy. -/
def optTruthy : Option String → Bool
  | none => false
  | some s => s != ""

/-- Whitespace class stripped by Python `str.strip()` (ASCII part). -/
def isPyWs (c : Char) : Bool :=
  c = ' ' || c = '\t' || c = '\n' || c = '\r' || c = '\x0b' || c = '\x0c'

/-- Python `str.strip()` on a character list: drop whitespace at both ends. -/
def pyStripL (l : List Char) : List Char :=
  ((l.dropWhile isPyWs).reverse.dropWhile isPyWs).reverse

/-- Characters stripped by Python `str.strip("<>")`. -/
def isAngle (c : Char) : Bool := c = '<' || c = '>'

/-- Python `str.strip("<>")` on a character list. -/
def pyStripAngleL (l : List Char) : List Char :=
  ((l.dropWhile isAngle).reverse.dropWhile isAngle).reverse

/-- Python `str.strip("<>")` on a string. -/
def pyStripAngle (s : String) : String := String.mk (pyStripAngleL s.data)

/-- Python `str.split()` (no argument): split on whitespace runs, dropping
empty tokens. -/
def splitWs : List Char → List (List Char)
  | [] => []
  | c :: rest =>
    if isPyWs c then splitWs rest
    else
      match splitWs rest with
      | [] => [[c]]
      | tok :: toks =>
        match rest with
        | [] => [[c]]
        | r :: _ => if isPyWs r then [c] :: tok :: toks else (c :: tok) :: toks

/-- Python `str.split("\n")`: always at least one (possibly empty) piece. -/
def splitNl : List Char → List (List Char)
  | [] => [[]]
  | c :: rest =>
    match splitNl rest with
    | [] => [[]]
    | l :: ls => if c = '\n' then [] :: l :: ls else (c :: l) :: ls

/-- Python `"\n".join(...)` on character lists. -/
def joinNl : List (List Char) → List Char
  | [] => []
  | [l] => l
  | l :: l2 :: rest => l ++ '\n' :: joinNl (l2 :: rest)

/-- Whether `pat` occurs as a prefix of `s` at offset `p`. -/
def startsWithAt (s pat : List Char) (p : Nat) : Bool :=
  pat.isPrefixOf (s.drop p)

/-- Python `pat in s` (substring containment) on character lists. -/
def containsSubL (s pat : List Char) : Bool :=
  (List.range (s.length + 1)).any (fun p => startsWithAt s pat p)

/-- Least `p < k` with `f p = true` (leftmost match, as `re.search` scans). -/
def leastBelow (f : Nat → Bool) : Nat → Option Nat
  | 0 => none
  | k + 1 =>
    match leastBelow f k with
    | some p => some p
    | none => if f k then some k else none

/-- ASCII model of Python `str.upper()`. -/
def asciiUpper (s : String) : String := String.mk (s.data.map Char.toUpper)

/-- ASCII model of Python `str.lower()`. -/
def asciiLower (s : String) : String := String.mk (s.data.map Char.toLower)

/-! ## thread_utils.py: the reply forest

`build_thread_tree` (lines 36-71) creates one `ThreadNode` per message, then
appends each message whose truthy `in_reply_to` names another message of the
input set to that parent's `children` list; every other message is appended to
`roots`.  With pairwise-distinct `message_id`s the resulting node graph is
fully described by `rootsOf` and `childrenOf` below. -/

/-- A stored message as `build_thread_tree` consumes it: only `message_id`
and `in_reply_to` influence the tree shape. -/
structure Message where
  message_id : String
  in_reply_to : Option String
deriving DecidableEq

/-- Condition under which `build_thread_tree` appends `c` to the children of
the node keyed by `x`: `c.in_reply_to` is truthy and equals `x`. -/
def replyCond (x : String) (c : Message) : Bool :=
  optTruthy c.in_reply_to && (c.in_reply_to == some x)

/-- Children of the node of `m`, in input order (line 57 appends in the order
of the message loop). -/
def childrenOf (msgs : List Message) (m : Message) : List Message :=
  msgs.filter (replyCond m.message_id)

/-- Whether some input message carries the given id (`msg.in_reply_to in
nodes` on line 54). -/
def idInSet (msgs : List Message) : Option String → Bool
  | none => false
  | some s => msgs.any (fun p => p.message_id == s)

/-- Root test of lines 54-60: a message is a root unless its `in_reply_to` is
truthy and names a message of the set. -/
def isRootB (msgs : List Message) (m : Message) : Bool :=
  !(optTruthy m.in_reply_to && idInSet msgs m.in_reply_to)

/-- The `roots` list returned by `build_thread_tree`, in input order. -/
def rootsOf (msgs : List Message) : List Message :=
  msgs.filter (isRootB msgs)

/-- Resolved parent of a message: the node its `in_reply_to` links to, when
truthy and present in the set (the unique such node when ids are distinct). -/
def parentOf (msgs : List Message) (m : Message) : Option Message :=
  match m.in_reply_to with
  | none => none
  | some s => if s = "" then none else msgs.find? (fun p => p.message_id == s)

/-- Iterated parent: `iterP msgs k m` follows `in_reply_to` links `k` times. -/
def iterP (msgs : List Message) : Nat → Message → Option Message
  | 0, m => some m
  | k + 1, m => (iterP msgs k m).bind (parentOf msgs)

/-- Fuelled depth-first collection of the messages of a subtree, mirroring the
recursive walks over `ThreadNode.children` (`set_depths` and the renderers). -/
def treeFlatten (msgs : List Message) : Nat → Message → List Message
  | 0, _ => []
  | f + 1, m => m :: (childrenOf msgs m).flatMap (treeFlatten msgs f)

/-- All nodes reachable from the returned roots, in depth-first order. -/
def forestMessages (msgs : List Message) (fuel : Nat) : List Message :=
  (rootsOf msgs).flatMap (treeFlatten msgs fuel)

/-- Bounded acyclicity: no message of the set returns to itself by following
`in_reply_to` links resolved within the set (cycle lengths in an `n`-element
set are at most `n`, so the bound loses nothing). -/
def acyclicB (msgs : List Message) : Bool :=
  msgs.all (fun m =>
    (List.range msgs.length).all (fun d => !(iterP msgs (d + 1) m == some m)))

/-- The `__post_init__` computation of `ThreadNode.can_flatten` (lines 26-33):
true exactly when the `children` value passed to the constructor has length
one. -/
def postInitCanFlatten (children : List Message) : Bool :=
  children.length == 1

/-- Value of `node.can_flatten` for every node right after `build_thread_tree`:
line 46 constructs each `ThreadNode` with `children=[]`, so `__post_init__`
sees the empty list, and the later `children.append` calls (line 57) never
recompute the flag. -/
def canFlattenAfterBuild (msgs : List Message) (m : Message) : Bool :=
  postInitCanFlatten []

/-! ## thread_utils.py: the flat rendering projection

`thread_to_flat_list` (lines 134-180) walks the forest depth-first and emits
one record per node with a visual depth.  Lines 156-159 assign
`current_visual_depth = visual_depth` in both branches of the `if`; line 172
passes the same depth to the children exactly when the node has one child and
flattening is enabled, and `depth + 1` otherwise. -/

/-- One record of the list returned by `thread_to_flat_list`. -/
structure FlatEntry where
  mid : String
  depth : Nat
  has_children : Bool
  num_children : Nat
deriving DecidableEq

/-- The recursive `traverse` of lines 146-175, fuelled.  `par` is the
`parent_node` argument; it only feeds the dead `if` of lines 156-159. -/
def traverse (msgs : List Message) (flat : Bool) :
    Nat → Message → Option Message → Nat → List FlatEntry
  | 0, _, _, _ => []
  | fuel + 1, node, par, visual_depth =>
    let ch := childrenOf msgs node
    let current :=
      if flat && par.elim false (fun p => (childrenOf msgs p).length == 1) then
        visual_depth
      else visual_depth
    let next := if ch.length != 1 || !flat then current + 1 else current
    ⟨node.message_id, current, decide (0 < ch.length), ch.length⟩ ::
      ch.flatMap (fun c => traverse msgs flat fuel c (some node) next)

/-- `thread_to_flat_list` applied to the forest `build_thread_tree` returns
for `msgs` (lines 177-178 start each root at visual depth 0). -/
def thread_to_flat_list (msgs : List Message) (flat : Bool) : List FlatEntry :=
  (rootsOf msgs).flatMap (fun r => traverse msgs flat (msgs.length + 1) r none 0)

/-- A linear reply chain: each message replies to the one before it, the first
to `prev` (used to state the linear-chain claims). -/
def mkChain : Option String → List String → List Message
  | _, [] => []
  | prev, i :: rest => ⟨i, prev⟩ :: mkChain (some i) rest

/-- Id carried into the continuation of a chain: the last id of the list, or
the seed when the list is empty. -/
def endPrev : Option String → List String → Option String
  | prev, [] => prev
  | _, i :: rest => endPrev (some i) rest

/-- A single-child chain hangs below `m`: `rest` lists, in order, the ids of
the unique descendants of `m` in the forest of `msgs`. -/
def hangs (msgs : List Message) : Message → List String → Prop
  | m, [] => childrenOf msgs m = []
  | m, i :: rest =>
    ∃ c, childrenOf msgs m = [c] ∧ c.message_id = i ∧ hangs msgs c rest

/-! ## email_parser.py: patch detection (lines 138-157)

The detection loop searches the body with `re.MULTILINE` for the patterns
`diff --git`, `^---.*\n\+\+\+` and `^Index:`; any hit (or `PATCH` in the
upper-cased subject) sets `is_patch`.  On a body hit it extracts the suffix
from the leftmost match of the alternation
`(diff --git.*|^---.*\n\+\+\+.*|^Index:.*)` searched with
`re.MULTILINE | re.DOTALL`; under `DOTALL` the `.*` between `---` and
`\n\+\+\+` spans newlines, so that alternative only needs SOME later newline
followed by `+++`, not the immediately following line. -/

/-- Whether offset `p` is a line start (`^` under `re.MULTILINE`). -/
def lineStartAt (s : List Char) (p : Nat) : Bool :=
  p == 0 || (s.get? (p - 1) == some '\n')

/-- First newline at offset `start` or later. -/
def firstNlFrom (s : List Char) (start : Nat) : Option Nat :=
  leastBelow (fun q => start ≤ q && (s.get? q == some '\n')) s.length

/-- Match of `diff --git` starting at offset `p`. -/
def diffGitAt (s : List Char) (p : Nat) : Bool :=
  startsWithAt s ("diff --git".data) p

/-- Match of `^---.*\n\+\+\+` under `re.MULTILINE` (no `DOTALL`) at `p`: a
line starting with `---` whose immediately following line starts with
`+++`. -/
def dashStrictAt (s : List Char) (p : Nat) : Bool :=
  lineStartAt s p && startsWithAt s ("---".data) p &&
    (match firstNlFrom s (p + 3) with
     | some j => startsWithAt s ("+++".data) (j + 1)
     | none => false)

/-- Match of `^---.*\n\+\+\+` under `re.MULTILINE | re.DOTALL` at `p`: a line
starting with `---` with a `+++` right after some later newline. -/
def dashLooseAt (s : List Char) (p : Nat) : Bool :=
  lineStartAt s p && startsWithAt s ("---".data) p &&
    (List.range s.length).any (fun q =>
      p + 3 ≤ q && (s.get? q == some '\n') && startsWithAt s ("+++".data) (q + 1))

/-- Match of `^Index:` under `re.MULTILINE` at `p`. -/
def indexAt (s : List Char) (p : Nat) : Bool :=
  lineStartAt s p && startsWithAt s ("Index:".data) p

/-- Whether `re.search("diff --git", body, re.MULTILINE)` hits. -/
def hasDiffGit (s : List Char) : Bool :=
  (List.range s.length).any (diffGitAt s)

/-- Whether the strict unified-diff pair pattern hits anywhere. -/
def hasDashPair (s : List Char) : Bool :=
  (List.range s.length).any (dashStrictAt s)

/-- Whether `^Index:` hits anywhere. -/
def hasIndexLine (s : List Char) : Bool :=
  (List.range s.length).any (indexAt s)

/-- Disjunction of the three trigger patterns (the `for pattern in
patch_patterns` loop sets `is_patch` exactly when one of them matches). -/
def bodyHasPatchPattern (s : List Char) : Bool :=
  hasDiffGit s || hasDashPair s || hasIndexLine s

/-- Matcher of the extraction alternation at offset `p` (the second
`re.search`, with `DOTALL`). -/
def looseAt (s : List Char) (p : Nat) : Bool :=
  diffGitAt s p || dashLooseAt s p || indexAt s p

/-- The patch-detection block of `parse_email` (lines 138-157): returns the
`is_patch` flag and `patch_content`. -/
def detectPatch (subject body : String) : Bool × Option String :=
  let s := body.data
  let bodyMatch := bodyHasPatchPattern s
  let pc :=
    if bodyMatch then
      (leastBelow (looseAt s) s.length).map (fun p => String.mk (s.drop p))
    else none
  let subjU := (asciiUpper subject).data
  let isP :=
    bodyMatch || (containsSubL subjU ("[PATCH]".data) ||
      containsSubL subjU ("PATCH".data))
  (isP, pc)

/-! ## email_parser.py: ParsedEmail and parse_email

`parse_email` (lines 83-171) leans on the standard library for the raw RFC
5322 parse, address parsing and date parsing; those collaborator results are
the fields of `RawEmail` below (a `none` header is an absent header, a `none`
`date_parsed` is a `parsedate_to_datetime` that raised, a `failed` content is
a `get_content` call that raised).  Everything `parse_email` itself does with
those results - defaults, angle-bracket stripping, truthiness tests, date
fallback, body selection, patch detection - is modelled faithfully. -/

/-- Outcome of a body-decoding call (`get_content`): the decoded text - with
undecodable bytes already replaced by the lossy-decode collaborator - or a
raised exception. -/
inductive DecodeResult
  | ok (s : String)
  | failed
deriving DecidableEq

/-- One part of a multipart message, as seen by the `msg.walk()` loop. -/
structure Part where
  content_type : String
  content : DecodeResult
deriving DecidableEq

/-- Collaborator results `parse_email` consumes for one raw input. -/
structure RawEmail where
  msgid_header : Option String
  subject_header : Option String
  from_name_parsed : String
  from_email_parsed : String
  date_header : Option String
  date_parsed : Option Int
  in_reply_to_header : Option String
  references_header : Option String
  is_multipart : Bool
  parts : List Part
  single_content : DecodeResult
  raw_decoded : String
deriving DecidableEq

/-- The record `parse_email` builds (class `ParsedEmail`, lines 12-55); the
constructor's `references or []` normalisation is inlined. -/
structure ParsedEmail where
  message_id : String
  from_email : String
  from_name : String
  subject : String
  date : Int
  body : String
  in_reply_to : Option String
  references : List String
  is_patch : Bool
  patch_content : Option String
  raw : Option String
deriving DecidableEq

/-- Thread-root derivation of lines 57-67: first `references` entry, else a
truthy `in_reply_to`, else the message's own id. -/
def ParsedEmail.get_thread_id (p : ParsedEmail) : String :=
  match p.references with
  | r :: _ => r
  | [] =>
    match p.in_reply_to with
    | some s => if s = "" then p.message_id else s
    | none => p.message_id

/-- The `References` list of line 116: whitespace-split, each token stripped
of angle brackets, tokens whose stripped form is empty dropped. -/
def parserReferences (h : String) : List String :=
  (((splitWs h.data).map pyStripAngleL).filter (fun r => r ≠ [])).map String.mk

/-- Body selection of lines 123-131: first `text/plain` part whose
`get_content` succeeds; `body` stays `""` otherwise. -/
def firstPlainBody : List Part → String
  | [] => ""
  | p :: rest =>
    if p.content_type = "text/plain" then
      match p.content with
      | .ok b => b
      | .failed => firstPlainBody rest
    else firstPlainBody rest

/-- The whole of `parse_email` (lines 83-171) over the collaborator results,
with `now` the current time used as the date fallback. -/
def parse_email (raw : RawEmail) (now : Int) : ParsedEmail :=
  let message_id := pyStripAngle (raw.msgid_header.getD "")
  let subject := raw.subject_header.getD "No Subject"
  let from_email := raw.from_email_parsed
  let from_name :=
    if raw.from_name_parsed = "" then from_email else raw.from_name_parsed
  let date :=
    match raw.date_header with
    | none => now
    | some h =>
      if h = "" then now
      else match raw.date_parsed with
        | some d => d
        | none => now
  let irt0 := pyStripAngle (raw.in_reply_to_header.getD "")
  let in_reply_to := if irt0 = "" then none else some irt0
  let references := parserReferences (raw.references_header.getD "")
  let body :=
    if raw.is_multipart then firstPlainBody raw.parts
    else match raw.single_content with
      | .ok b => b
      | .failed => ""
  let pd := detectPatch subject body
  { message_id, from_email, from_name, subject, date, body, in_reply_to,
    references, is_patch := pd.1, patch_content := pd.2,
    raw := some raw.raw_decoded }

/-! ## email_parser.py: extract_quoted_text (lines 174-203)

The loop walks the lines top-down with a sticky `in_quote` flag: a line whose
stripped form starts with `>` or `|`, or starts with `On ` while the raw line
contains ` wrote:`, turns the flag on; from then on every line lands in
`quoted_lines`.  Both joined halves are stripped before being returned. -/

/-- Whether a line switches the loop into quote mode (lines 189-197). -/
def quoteTrigger (line : List Char) : Bool :=
  let st := pyStripL line
  startsWithAt st ['>'] 0 || startsWithAt st ['|'] 0 ||
    (startsWithAt st ("On ".data) 0 && containsSubL line (" wrote:".data))

/-- The line loop of lines 188-201 with its `in_quote` state. -/
def quoteSplitAux : Bool → List (List Char) → List (List Char) × List (List Char)
  | _, [] => ([], [])
  | inq, l :: rest =>
    if quoteTrigger l || inq then
      let (n, q) := quoteSplitAux true rest
      (n, l :: q)
    else
      let (n, q) := quoteSplitAux false rest
      (l :: n, q)

/-- `extract_quoted_text`: split on newlines, run the quote loop, join and
strip both halves (line 203). -/
def extract_quoted_text (body : String) : String × String :=
  let lines := splitNl body.data
  let (n, q) := quoteSplitAux false lines
  (String.mk (pyStripL (joinNl n)), String.mk (pyStripL (joinNl q)))

/-! ## ingest.py: per-message ingestion

`ingest_archive` (lines 196-358) processes extracted emails one at a time
against the database session.  For one email the observable effects are: skip
when the message id is unusable or already stored, otherwise resolve or
create the thread (with the missing-root repair of lines 292-317 and its
diagnostic warning) and insert one message row.  The date/body parsing and
the `updated_at` touch of an existing thread affect no field the claims
mention and are left out of the state. -/

/-- `get_email_message_id` (lines 100-113). -/
def get_email_message_id : Option String → Option String
  | none => none
  | some h => if h = "" then none else some (pyStripAngle h)

/-- `get_email_in_reply_to` (lines 116-128). -/
def get_email_in_reply_to : Option String → Option String
  | none => none
  | some h => if h = "" then none else some (pyStripAngle h)

/-- `get_email_references` (lines 131-144): whitespace-split tokens, each
stripped of angle brackets.  The guard `if ref.strip()` filters on the
whitespace-stripped token, which is never empty for a `split()` token, so an
id such as `<>` contributes the empty string. -/
def get_email_references : Option String → List String
  | none => []
  | some h =>
    if h = "" then []
    else (((splitWs h.data).filter (fun r => pyStripL r ≠ [])).map
      (fun r => String.mk (pyStripAngleL r)))

/-- A stored thread row (fields the resolver reads or writes). -/
structure DbThread where
  tid : Nat
  subject : String
  first_message_id : String
  is_patch : Bool
deriving DecidableEq

/-- A stored message row (fields the resolver reads or writes). -/
structure DbMessage where
  message_id : String
  in_reply_to : Option String
  thread_id : Nat
deriving DecidableEq

/-- The database state one ingestion step reads and writes, plus a count of
the diagnostic warnings recorded by `logger.warning` (line 312). -/
structure DB where
  threads : List DbThread
  messages : List DbMessage
  nextId : Nat
  warnings : Nat
deriving DecidableEq

/-- One email of the archive, after header extraction and subject
decoding. -/
structure InEmail where
  msgid_header : Option String
  irt_header : Option String
  refs_header : Option String
  subject : String
deriving DecidableEq

/-- Outcome of one loop iteration: skipped for a missing id (line 218),
counted as a duplicate (lines 226-229), or inserted (line 354). -/
inductive IngestOutcome
  | noId
  | duplicate
  | inserted
deriving DecidableEq

/-- Root derivation of lines 278-290: `(intended_thread_root,
thread_root_id)` before the repair logic runs. -/
def ingestDerivedRoot (em : InEmail) (mid : String) : Option String × String :=
  match get_email_references em.refs_header with
  | r :: _ => (some r, r)
  | [] =>
    match get_email_in_reply_to em.irt_header with
    | some s => if s = "" then (none, mid) else (some s, s)
    | none => (none, mid)

/-- One iteration of the `ingest_archive` loop (lines 216-354) for one email
against the current database state. -/
def ingest_one (db : DB) (em : InEmail) : DB × IngestOutcome :=
  match get_email_message_id em.msgid_header with
  | none => (db, .noId)
  | some mid =>
    if mid = "" then (db, .noId)
    else if (db.messages.find? (fun m => m.message_id == mid)).isSome then
      (db, .duplicate)
    else
      let in_reply_to := get_email_in_reply_to em.irt_header
      let ir := ingestDerivedRoot em mid
      let t0 := db.threads.find? (fun t => t.first_message_id == ir.2)
      let rep : Option DbThread × String × Bool :=
        match t0 with
        | some t => (some t, ir.2, false)
        | none =>
          match ir.1 with
          | some iroot =>
            if iroot = "" ∨ iroot = mid then (none, ir.2, false)
            else
              match db.messages.find? (fun m => m.message_id == iroot) with
              | some rootMsg =>
                (db.threads.find? (fun t => t.tid == rootMsg.thread_id),
                  ir.2, false)
              | none =>
                let viaIrt :=
                  match in_reply_to with
                  | some irt =>
                    if irt = "" then none
                    else
                      match db.messages.find? (fun m => m.message_id == irt) with
                      | some im => db.threads.find? (fun t => t.tid == im.thread_id)
                      | none => none
                  | none => none
                match viaIrt with
                | some t => (some t, ir.2, false)
                | none => (none, mid, true)
          | none => (none, ir.2, false)
      let tr := rep.1
      let root1 := rep.2.1
      let warn := rep.2.2
      let created :=
        match tr with
        | some t => (t, db.threads, db.nextId)
        | none =>
          let t : DbThread :=
            ⟨db.nextId, em.subject, root1,
              containsSubL (asciiLower em.subject).data ("patch".data)⟩
          (t, db.threads ++ [t], db.nextId + 1)
      let msg : DbMessage := ⟨mid, in_reply_to, created.1.tid⟩
      (⟨created.2.1, db.messages ++ [msg], created.2.2,
        db.warnings + (if warn then 1 else 0)⟩, .inserted)

/-! ## Concrete inputs used by witnesses and counterexamples -/

/-- Position of the first body offset matching one of the three trigger
patterns themselves.  Modelled from the claim wording "the first match of
such a pattern"; the source instead searches the `DOTALL`-loosened
alternation. -/
def firstStrictPatternPos (s : List Char) : Option Nat :=
  leastBelow (fun p => diffGitAt s p || dashStrictAt s p || indexAt s p) s.length

/-- Body whose first strict pattern match (`diff --git`) lies after an
earlier `---` line that only the `DOTALL`-loosened alternative matches. -/
def exBody : String := "--- a\nxx\n+++ b\ndiff --git f"

/-- Collaborator results of a thoroughly malformed raw email: every header
missing, the date unparseable, the single body part undecodable. -/
def rawBad : RawEmail :=
  ⟨none, none, "", "", none, none, none, none, false, [], .failed, "x"⟩

/-- An empty database state. -/
def dbEmpty : DB := ⟨[], [], 0, 0⟩

/-- The spec scenario: `References: <root@x> <mid@x>`, `In-Reply-To:
<mid@x>`, own id `new@x`, with neither referenced message stored. -/
def emScenario : InEmail :=
  ⟨some "<new@x>", some "<mid@x>", some "<root@x> <mid@x>", "S"⟩

/-- An email whose `References` header holds only the empty id `<>`. -/
def emEmptyRootId : InEmail := ⟨some "<m@x>", none, some "<>", "Subj"⟩

/-! ## Helper lemmas -/

theorem leastBelow_none_all {f : Nat → Bool} :
    ∀ {k : Nat}, leastBelow f k = none → ∀ q < k, f q = false := by
  intro k
  induction k with
  | zero => intro _ q hq; omega
  | succ k ih =>
    intro h q hq
    unfold leastBelow at h
    cases hlb : leastBelow f k with
    | some p0 => rw [hlb] at h; cases h
    | none =>
      rw [hlb] at h
      by_cases hf : f k = true
      · rw [if_pos hf] at h; cases h
      · rcases Nat.lt_succ_iff_lt_or_eq.mp hq with hq' | hq'
        · exact ih hlb q hq'
        · subst hq'; simpa using hf

theorem leastBelow_spec {f : Nat → Bool} :
    ∀ {k p : Nat}, leastBelow f k = some p →
      f p = true ∧ p < k ∧ ∀ q < p, f q = false := by
  intro k
  induction k with
  | zero => intro p h; exact absurd h (by simp [leastBelow])
  | succ k ih =>
    intro p h
    unfold leastBelow at h
    cases hlb : leastBelow f k with
    | some p0 =>
      rw [hlb] at h
      cases h
      obtain ⟨h1, h2, h3⟩ := ih hlb
      exact ⟨h1, Nat.lt_succ_of_lt h2, h3⟩
    | none =>
      rw [hlb] at h
      by_cases hf : f k = true
      · rw [if_pos hf] at h
        cases h
        exact ⟨hf, Nat.lt_succ_self _, fun q hq => leastBelow_none_all hlb q hq⟩
      · rw [if_neg hf] at h
        cases h

theorem leastBelow_isSome {f : Nat → Bool} {k : Nat}
    (h : ∃ p, p < k ∧ f p = true) : ∃ p, leastBelow f k = some p := by
  cases hlb : leastBelow f k with
  | some p => exact ⟨p, rfl⟩
  | none =>
    obtain ⟨p, hp, hf⟩ := h
    exact absurd hf (by simp [leastBelow_none_all hlb p hp])

theorem quoteSplitAux_true (ls : List (List Char)) :
    quoteSplitAux true ls = ([], ls) := by
  induction ls with
  | nil => rfl
  | cons l rest ih => simp [quoteSplitAux, ih]

theorem quoteSplitAux_false (ls : List (List Char)) :
    quoteSplitAux false ls =
      (ls.takeWhile (fun l => !quoteTrigger l),
       ls.dropWhile (fun l => !quoteTrigger l)) := by
  induction ls with
  | nil => rfl
  | cons l rest ih =>
    by_cases hq : quoteTrigger l = true
    · simp [quoteSplitAux, hq, quoteSplitAux_true, List.takeWhile_cons,
        List.dropWhile_cons]
    · simp [quoteSplitAux, hq, ih, List.takeWhile_cons, List.dropWhile_cons]

theorem splitNl_ne_nil (s : List Char) : splitNl s ≠ [] := by
  cases s with
  | nil => simp [splitNl]
  | cons c rest =>
    unfold splitNl
    cases splitNl rest with
    | nil => simp
    | cons l ls => by_cases hc : c = '\n' <;> simp [hc]

theorem splitNl_cons (c : Char) (rest : List Char) :
    splitNl (c :: rest) =
      match splitNl rest with
      | [] => [[]]
      | l :: ls => if c = '\n' then [] :: l :: ls else (c :: l) :: ls := rfl

theorem joinNl_splitNl (s : List Char) : joinNl (splitNl s) = s := by
  induction s with
  | nil => rfl
  | cons c rest ih =>
    rw [splitNl_cons]
    cases hs : splitNl rest with
    | nil => exact absurd hs (splitNl_ne_nil rest)
    | cons l ls =>
      rw [hs] at ih
      dsimp only
      by_cases hc : c = '\n'
      · subst hc
        simpa [joinNl] using ih
      · rw [if_neg hc]
        cases ls with
        | nil => simpa [joinNl] using congrArg (c :: ·) ih
        | cons l2 ls2 => simpa [joinNl] using congrArg (c :: ·) ih

theorem takeWhile_all {α} (p : α → Bool) (l : List α)
    (h : ∀ a ∈ l, p a = true) :
    l.takeWhile p = l ∧ l.dropWhile p = [] := by
  induction l with
  | nil => exact ⟨rfl, rfl⟩
  | cons a rest ih =>
    have ha := h a (List.mem_cons_self a rest)
    have ⟨h1, h2⟩ := ih (fun b hb => h b (List.mem_cons_of_mem a hb))
    simp [List.takeWhile_cons, List.dropWhile_cons, ha, h1, h2]

theorem firstPlainBody_all_failed (parts : List Part)
    (h : ∀ p ∈ parts, p.content_type = "text/plain" → p.content = .failed) :
    firstPlainBody parts = "" := by
  induction parts with
  | nil => rfl
  | cons p rest ih =>
    have hrest := ih (fun q hq => h q (List.mem_cons_of_mem p hq))
    by_cases hct : p.content_type = "text/plain"
    · have := h p (List.mem_cons_self p rest) hct
      simp [firstPlainBody, hct, this, hrest]
    · simp [firstPlainBody, hct, hrest]

/-- Containment of `[PATCH]` implies containment of `PATCH` (the first
disjunct of line 156 is subsumed by the second). -/
theorem containsSub_bracket_patch {s : List Char}
    (h : containsSubL s ("[PATCH]".data) = true) :
    containsSubL s ("PATCH".data) = true := by
  unfold containsSubL at h ⊢
  rw [List.any_eq_true] at h ⊢
  obtain ⟨p, hp, hpre⟩ := h
  unfold startsWithAt at hpre
  rw [List.isPrefixOf_iff_prefix] at hpre
  obtain ⟨t, ht⟩ := hpre
  refine ⟨p + 1, ?_, ?_⟩
  · rw [List.mem_range] at hp ⊢
    have h7 : ("[PATCH]".data ++ t).length = s.length - p := by
      rw [ht]; exact List.length_drop p s
    have h8 : t.length + 1 + 1 + 1 + 1 + 1 + 1 + 1 = s.length - p := by
      simpa [List.length_append] using h7
    omega
  · unfold startsWithAt
    rw [List.isPrefixOf_iff_prefix]
    have hdrop : s.drop (p + 1) = (s.drop p).drop 1 := by
      rw [List.drop_drop]
    rw [hdrop, ← ht]
    exact ⟨"]".data ++ t, by simp⟩

/-! ## Forest lemmas: the parent map and its iterates -/

/-- Unbounded acyclicity, derived from `acyclicB` below: no message returns
to itself along resolved `in_reply_to` links. -/
def AcyclicP (msgs : List Message) : Prop :=
  ∀ m ∈ msgs, ∀ d : Nat, iterP msgs (d + 1) m ≠ some m

theorem iterP_succ (msgs : List Message) (k : Nat) (m : Message) :
    iterP msgs (k + 1) m = (iterP msgs k m).bind (parentOf msgs) := rfl

theorem treeFlatten_succ (msgs : List Message) (f : Nat) (m : Message) :
    treeFlatten msgs (f + 1) m
      = m :: (childrenOf msgs m).flatMap (treeFlatten msgs f) := rfl

theorem iterP_zero (msgs : List Message) (m : Message) :
    iterP msgs 0 m = some m := rfl

theorem parentOf_mem {msgs : List Message} {m p : Message}
    (h : parentOf msgs m = some p) : p ∈ msgs := by
  unfold parentOf at h
  cases hirt : m.in_reply_to with
  | none => rw [hirt] at h; cases h
  | some s =>
    rw [hirt] at h
    dsimp only at h
    by_cases hs : s = ""
    · rw [if_pos hs] at h; cases h
    · rw [if_neg hs] at h
      exact List.mem_of_find?_eq_some h

theorem isRootB_iff_parentOf_none (msgs : List Message) (m : Message) :
    isRootB msgs m = true ↔ parentOf msgs m = none := by
  unfold isRootB parentOf idInSet optTruthy
  cases m.in_reply_to with
  | none => simp
  | some s =>
    by_cases hs : s = ""
    · simp [hs]
    · simp only [if_neg hs]
      constructor
      · intro h
        rw [List.find?_eq_none]
        intro p hp hps
        rw [Bool.not_eq_true', Bool.and_eq_false_iff] at h
        rcases h with h | h
        · simp [hs] at h
        · rw [List.any_eq_false] at h
          exact absurd hps (h p hp)
      · intro h
        rw [List.find?_eq_none] at h
        rw [Bool.not_eq_true', Bool.and_eq_false_iff]
        right
        rw [List.any_eq_false]
        exact fun p hp => h p hp

theorem mem_rootsOf {msgs : List Message} {m : Message} :
    m ∈ rootsOf msgs ↔ m ∈ msgs ∧ isRootB msgs m = true := by
  unfold rootsOf
  exact List.mem_filter

theorem find_id_nodup {msgs : List Message}
    (h : (msgs.map Message.message_id).Nodup) {m : Message} (hm : m ∈ msgs) :
    msgs.find? (fun p => p.message_id == m.message_id) = some m := by
  induction msgs with
  | nil => cases hm
  | cons a rest ih =>
    rw [List.map_cons, List.nodup_cons] at h
    rcases List.mem_cons.mp hm with rfl | hm2
    · exact List.find?_cons_of_pos rest (by simp)
    · have hne : ¬((fun p => p.message_id == m.message_id) a) = true := by
        simp only [beq_iff_eq]
        intro he
        exact h.1 (he ▸ List.mem_map_of_mem Message.message_id hm2)
      have hstep : List.find? (fun p => p.message_id == m.message_id) (a :: rest)
          = List.find? (fun p => p.message_id == m.message_id) rest :=
        List.find?_cons_of_neg rest hne
      rw [hstep]
      exact ih h.2 hm2

theorem children_iff {msgs : List Message}
    (hn : (msgs.map Message.message_id).Nodup) {r : Message} (hr : r ∈ msgs)
    (c : Message) :
    c ∈ childrenOf msgs r ↔ c ∈ msgs ∧ parentOf msgs c = some r := by
  unfold childrenOf
  rw [List.mem_filter]
  constructor
  · rintro ⟨hc, hcond⟩
    unfold replyCond at hcond
    rw [Bool.and_eq_true] at hcond
    obtain ⟨ht, heq⟩ := hcond
    have heq2 : c.in_reply_to = some r.message_id := by
      exact eq_of_beq heq
    refine ⟨hc, ?_⟩
    unfold parentOf
    rw [heq2]
    dsimp only
    have hne : r.message_id ≠ "" := by
      unfold optTruthy at ht
      rw [heq2] at ht
      simpa using ht
    rw [if_neg hne]
    exact find_id_nodup hn hr
  · rintro ⟨hc, hp⟩
    unfold parentOf at hp
    cases hirt : c.in_reply_to with
    | none => rw [hirt] at hp; cases hp
    | some s =>
      rw [hirt] at hp
      dsimp only at hp
      by_cases hs : s = ""
      · rw [if_pos hs] at hp; cases hp
      · rw [if_neg hs] at hp
        have hpr : r.message_id = s := by
          simpa using List.find?_some hp
        refine ⟨hc, ?_⟩
        unfold replyCond optTruthy
        rw [hirt]
        simp [hpr, hs]

theorem msgs_nodup {msgs : List Message}
    (hn : (msgs.map Message.message_id).Nodup) : msgs.Nodup :=
  List.Nodup.of_map _ hn

theorem children_nodup {msgs : List Message}
    (hn : (msgs.map Message.message_id).Nodup) (r : Message) :
    (childrenOf msgs r).Nodup :=
  (msgs_nodup hn).filter _

theorem rootsOf_nodup {msgs : List Message}
    (hn : (msgs.map Message.message_id).Nodup) : (rootsOf msgs).Nodup :=
  (msgs_nodup hn).filter _

theorem iterP_add (msgs : List Message) (a b : Nat) (m : Message) :
    iterP msgs (a + b) m = (iterP msgs a m).bind (iterP msgs b) := by
  induction b with
  | zero =>
    show iterP msgs a m = (iterP msgs a m).bind (iterP msgs 0)
    cases iterP msgs a m <;> rfl
  | succ b ih =>
    calc iterP msgs (a + b + 1) m
        = (iterP msgs (a + b) m).bind (parentOf msgs) := iterP_succ ..
      _ = ((iterP msgs a m).bind (iterP msgs b)).bind (parentOf msgs) := by
          rw [ih]
      _ = (iterP msgs a m).bind (iterP msgs (b + 1)) := by
          cases iterP msgs a m <;> rfl

theorem iterP_mem {msgs : List Message} {k : Nat} {m x : Message}
    (hk : 1 ≤ k) (h : iterP msgs k m = some x) : x ∈ msgs := by
  obtain ⟨k2, rfl⟩ : ∃ k2, k = k2 + 1 := ⟨k - 1, by omega⟩
  rw [iterP_succ] at h
  cases hy : iterP msgs k2 m with
  | none => rw [hy] at h; cases h
  | some y =>
    rw [hy] at h
    exact parentOf_mem (by simpa using h)

theorem iterP_none_of_le {msgs : List Message} {m : Message} {a b : Nat}
    (h : iterP msgs a m = none) (hab : a ≤ b) : iterP msgs b m = none := by
  obtain ⟨d, rfl⟩ := Nat.exists_eq_add_of_le hab
  rw [iterP_add, h]
  rfl

theorem iterP_some_of_le {msgs : List Message} {m : Message} {b : Nat}
    {x : Message} (h : iterP msgs b m = some x) {a : Nat} (hab : a ≤ b) :
    ∃ y, iterP msgs a m = some y := by
  cases hy : iterP msgs a m with
  | some y => exact ⟨y, rfl⟩
  | none => rw [iterP_none_of_le hy hab] at h; cases h

theorem root_iterP_none {msgs : List Message} {r : Message}
    (h : parentOf msgs r = none) (d : Nat) (hd : 1 ≤ d) :
    iterP msgs d r = none := by
  have h1 : iterP msgs 1 r = none := by
    rw [iterP_succ]
    simpa [iterP] using h
  exact iterP_none_of_le h1 hd

theorem cycle_of_repeat {msgs : List Message} {m v : Message} {a b : Nat}
    (hab : a < b) (ha : iterP msgs a m = some v)
    (hb : iterP msgs b m = some v) : iterP msgs (b - a) v = some v := by
  have h : iterP msgs (a + (b - a)) m = some v := by
    rw [Nat.add_sub_cancel' (le_of_lt hab)]
    exact hb
  rw [iterP_add, ha] at h
  simpa using h

theorem cycle_shift {msgs : List Message} {v r : Message} {p j : Nat}
    (hc : iterP msgs p v = some v) (hj : iterP msgs j v = some r) :
    iterP msgs p r = some r := by
  have e1 : iterP msgs (p + j) v = some r := by
    rw [iterP_add, hc]
    simpa using hj
  rw [Nat.add_comm, iterP_add, hj] at e1
  simpa using e1

theorem nodup_sub_length {α} [DecidableEq α] {l big : List α}
    (hl : l.Nodup) (hsub : ∀ x ∈ l, x ∈ big) : l.length ≤ big.length := by
  calc l.length = l.toFinset.card := (List.toFinset_card_of_nodup hl).symm
    _ ≤ big.toFinset.card := Finset.card_le_card (fun x hx => by
        rw [List.mem_toFinset] at hx ⊢
        exact hsub x hx)
    _ ≤ big.length := big.toFinset_card_le

theorem acyclic_of_bounded {msgs : List Message}
    (hb : acyclicB msgs = true) : AcyclicP msgs := by
  intro m hm d hcy
  have hex : ∃ p, 0 < p ∧ iterP msgs p m = some m := ⟨d + 1, Nat.succ_pos d, hcy⟩
  obtain ⟨hp0pos, hp0cy⟩ := Nat.find_spec hex
  set p0 := Nat.find hex with hp0def
  have hmin : ∀ q < p0, ¬(0 < q ∧ iterP msgs q m = some m) :=
    fun q hq => Nat.find_min hex hq
  have hiterdist : ∀ a b, a < b → b < p0 → iterP msgs a m ≠ iterP msgs b m := by
    intro a b hab hb0 heq
    obtain ⟨v, hv⟩ := iterP_some_of_le hp0cy (show a ≤ p0 by omega)
    have hvb : iterP msgs b m = some v := by rw [← heq]; exact hv
    have hcycv := cycle_of_repeat hab hv hvb
    have hm2 : iterP msgs (p0 - a) v = some m := by
      have h := hp0cy
      rw [show p0 = a + (p0 - a) by omega, iterP_add, hv] at h
      simpa using h
    have hcym : iterP msgs (b - a) m = some m := cycle_shift hcycv hm2
    exact hmin (b - a) (by omega) ⟨by omega, hcym⟩
  have hlnodup : ((List.range p0).map (fun a => iterP msgs a m)).Nodup := by
    refine List.Nodup.map_on ?_ (List.nodup_range _)
    intro a ha b hb heq
    rw [List.mem_range] at ha hb
    by_contra hne
    rcases Nat.lt_or_ge a b with h | h
    · exact hiterdist a b h hb heq
    · exact hiterdist b a (by omega) ha heq.symm
  have hsub : ∀ x ∈ (List.range p0).map (fun a => iterP msgs a m),
      x ∈ msgs.map some := by
    intro x hx
    rw [List.mem_map] at hx
    obtain ⟨a, ha, rfl⟩ := hx
    rcases Nat.eq_zero_or_pos a with rfl | hapos
    · exact List.mem_map_of_mem some hm
    · rw [List.mem_range] at ha
      obtain ⟨v, hv⟩ := iterP_some_of_le hp0cy (le_of_lt ha)
      rw [hv]
      exact List.mem_map_of_mem some (iterP_mem hapos hv)
  have hlen := nodup_sub_length hlnodup hsub
  rw [List.length_map, List.length_range, List.length_map] at hlen
  have hnpos : 0 < msgs.length := List.length_pos_of_mem hm
  unfold acyclicB at hb
  rw [List.all_eq_true] at hb
  have hm3 := hb m hm
  rw [List.all_eq_true] at hm3
  have hd3 := hm3 (p0 - 1) (List.mem_range.mpr (by omega))
  rw [show p0 - 1 + 1 = p0 by omega, hp0cy] at hd3
  simp at hd3

theorem mem_treeFlatten {msgs : List Message}
    (hn : (msgs.map Message.message_id).Nodup) :
    ∀ {f : Nat} {r x : Message}, r ∈ msgs → x ∈ treeFlatten msgs f r →
      ∃ j, j < f ∧ iterP msgs j x = some r := by
  intro f
  induction f with
  | zero => intro r x _ hx; cases hx
  | succ f ih =>
    intro r x hr hx
    rw [treeFlatten_succ] at hx
    rcases List.mem_cons.mp hx with rfl | hx2
    · exact ⟨0, Nat.succ_pos f, rfl⟩
    · rw [List.mem_flatMap] at hx2
      obtain ⟨c, hc, hxc⟩ := hx2
      have hcm := (children_iff hn hr c).mp hc
      obtain ⟨j, hj, hjx⟩ := ih hcm.1 hxc
      refine ⟨j + 1, by omega, ?_⟩
      rw [iterP_succ, hjx]
      simpa using hcm.2

theorem treeFlatten_subset {msgs : List Message} :
    ∀ {f : Nat} {r x : Message}, r ∈ msgs → x ∈ treeFlatten msgs f r →
      x ∈ msgs := by
  intro f
  induction f with
  | zero => intro r x _ hx; cases hx
  | succ f ih =>
    intro r x hr hx
    rw [treeFlatten_succ] at hx
    rcases List.mem_cons.mp hx with rfl | hx2
    · exact hr
    · rw [List.mem_flatMap] at hx2
      obtain ⟨c, hc, hxc⟩ := hx2
      exact ih (List.mem_filter.mp hc).1 hxc

theorem forestMessages_subset {msgs : List Message} {f : Nat} {x : Message}
    (hx : x ∈ forestMessages msgs f) : x ∈ msgs := by
  unfold forestMessages at hx
  rw [List.mem_flatMap] at hx
  obtain ⟨r, hr, hxr⟩ := hx
  exact treeFlatten_subset (mem_rootsOf.mp hr).1 hxr

theorem flatMap_congr_mem {α β} {l : List α} {f g : α → List β}
    (h : ∀ a ∈ l, f a = g a) : l.flatMap f = l.flatMap g := by
  induction l with
  | nil => rfl
  | cons a rest ih =>
    rw [List.flatMap_cons, List.flatMap_cons,
      h a (List.mem_cons_self a rest),
      ih (fun b hb => h b (List.mem_cons_of_mem a hb))]

theorem treeFlatten_stable {msgs : List Message}
    (hn : (msgs.map Message.message_id).Nodup) :
    ∀ (f1 : Nat) {f2 : Nat} {r : Message}, r ∈ msgs →
      (∀ (x : Message) (j : Nat), iterP msgs j x = some r → j < f1) →
      (∀ (x : Message) (j : Nat), iterP msgs j x = some r → j < f2) →
      treeFlatten msgs f1 r = treeFlatten msgs f2 r := by
  intro f1
  induction f1 with
  | zero =>
    intro f2 r _ hb1 _
    exact absurd (hb1 r 0 rfl) (by omega)
  | succ f1 ih =>
    intro f2 r hr hb1 hb2
    have hf2 : 0 < f2 := hb2 r 0 rfl
    obtain ⟨f2p, rfl⟩ : ∃ f2p, f2 = f2p + 1 := ⟨f2 - 1, by omega⟩
    rw [treeFlatten_succ, treeFlatten_succ]
    congr 1
    apply flatMap_congr_mem
    intro c hc
    have hcm := (children_iff hn hr c).mp hc
    refine ih hcm.1 ?_ ?_
    · intro x j hj
      have hstep : iterP msgs (j + 1) x = some r := by
        rw [iterP_succ, hj]
        simpa using hcm.2
      have := hb1 x (j + 1) hstep
      omega
    · intro x j hj
      have hstep : iterP msgs (j + 1) x = some r := by
        rw [iterP_succ, hj]
        simpa using hcm.2
      have := hb2 x (j + 1) hstep
      omega

theorem iter_reach_root_bound {msgs : List Message}
    (hn : (msgs.map Message.message_id).Nodup) {r : Message}
    (hroot : parentOf msgs r = none)
    (x : Message) (j : Nat) (hx : x ∈ msgs) (hj : iterP msgs j x = some r) :
    j + 1 ≤ msgs.length := by
  have hdist : ∀ a b, a < b → b ≤ j → iterP msgs a x ≠ iterP msgs b x := by
    intro a b hab hbj heq
    obtain ⟨v, hv⟩ := iterP_some_of_le hj (show a ≤ j by omega)
    have hvb : iterP msgs b x = some v := by rw [← heq]; exact hv
    have hcycv := cycle_of_repeat hab hv hvb
    have hm2 : iterP msgs (j - a) v = some r := by
      have h := hj
      rw [show j = a + (j - a) by omega, iterP_add, hv] at h
      simpa using h
    have hcycr : iterP msgs (b - a) r = some r := cycle_shift hcycv hm2
    have hnone : iterP msgs (b - a) r = none :=
      root_iterP_none hroot _ (by omega)
    rw [hnone] at hcycr
    cases hcycr
  have hlnodup : ((List.range (j + 1)).map (fun a => iterP msgs a x)).Nodup := by
    refine List.Nodup.map_on ?_ (List.nodup_range _)
    intro a ha b hb heq
    rw [List.mem_range] at ha hb
    by_contra hne
    rcases Nat.lt_or_ge a b with h | h
    · exact hdist a b h (by omega) heq
    · exact hdist b a (by omega) (by omega) heq.symm
  have hsub : ∀ y ∈ (List.range (j + 1)).map (fun a => iterP msgs a x),
      y ∈ msgs.map some := by
    intro y hy
    rw [List.mem_map] at hy
    obtain ⟨a, ha, rfl⟩ := hy
    rcases Nat.eq_zero_or_pos a with rfl | hapos
    · exact List.mem_map_of_mem some hx
    · rw [List.mem_range] at ha
      obtain ⟨v, hv⟩ := iterP_some_of_le hj (show a ≤ j by omega)
      rw [hv]
      exact List.mem_map_of_mem some (iterP_mem hapos hv)
  have := nodup_sub_length hlnodup hsub
  simpa using this

theorem iter_reach_root_bound2 {msgs : List Message}
    (hn : (msgs.map Message.message_id).Nodup) {r : Message}
    (hroot : parentOf msgs r = none)
    (x : Message) (j : Nat) (hj : iterP msgs j x = some r) :
    j < msgs.length + 1 := by
  cases j with
  | zero => omega
  | succ j2 =>
    have h1 : iterP msgs (1 + j2) x = some r := by
      rw [Nat.add_comm]
      exact hj
    rw [iterP_add] at h1
    cases hy : iterP msgs 1 x with
    | none => rw [hy] at h1; cases h1
    | some y =>
      rw [hy] at h1
      have hym : y ∈ msgs := iterP_mem (le_refl 1) hy
      have := iter_reach_root_bound hn hroot y j2 hym (by simpa using h1)
      omega

theorem count_flatMap {α β} [DecidableEq β] (l : List α) (g : α → List β)
    (x : β) :
    ((l.flatMap g).count x) = (l.map (fun a => (g a).count x)).sum := by
  induction l with
  | nil => rfl
  | cons a rest ih =>
    rw [List.flatMap_cons, List.count_append, List.map_cons, List.sum_cons, ih]

theorem sum_ite_zero {α} (l : List α) (p : α → Prop) [DecidablePred p]
    (h : ∀ c ∈ l, ¬p c) :
    (l.map (fun c => if p c then 1 else 0)).sum = 0 := by
  apply List.sum_eq_zero
  intro y hy
  rw [List.mem_map] at hy
  obtain ⟨c, hc, rfl⟩ := hy
  simp [h c hc]

theorem sum_ite_unique {α} (l : List α) (p : α → Prop) [DecidablePred p]
    (hl : l.Nodup) (a : α) (ha : a ∈ l) (hpa : p a)
    (huniq : ∀ b ∈ l, p b → b = a) :
    (l.map (fun c => if p c then 1 else 0)).sum = 1 := by
  induction l with
  | nil => cases ha
  | cons b rest ih =>
    rw [List.nodup_cons] at hl
    rcases List.mem_cons.mp ha with rfl | ha2
    · have hrest : ∀ c ∈ rest, ¬p c := by
        intro c hc hpc
        have he := huniq c (List.mem_cons_of_mem _ hc) hpc
        exact hl.1 (he ▸ hc)
      rw [List.map_cons, List.sum_cons, if_pos hpa,
        sum_ite_zero rest p hrest]
    · have hbne : ¬p b := by
        intro hpb
        have he := huniq b (List.mem_cons_self _ _) hpb
        exact hl.1 (he.symm ▸ ha2)
      rw [List.map_cons, List.sum_cons, if_neg hbne, Nat.zero_add]
      exact ih hl.2 ha2 (fun c hc hpc => huniq c (List.mem_cons_of_mem _ hc) hpc)

theorem count_treeFlatten {msgs : List Message}
    (hn : (msgs.map Message.message_id).Nodup) (hac : AcyclicP msgs) :
    ∀ (f : Nat) {r : Message}, r ∈ msgs → ∀ {x : Message}, x ∈ msgs →
      (treeFlatten msgs f r).count x
        = if ∃ j, j < f ∧ iterP msgs j x = some r then 1 else 0 := by
  intro f
  induction f with
  | zero =>
    intro r _ x _
    rw [if_neg (by rintro ⟨j, hj, _⟩; omega)]
    rfl
  | succ f ih =>
    intro r hr x hx
    rw [treeFlatten_succ, List.count_cons, count_flatMap]
    have hmap : (childrenOf msgs r).map (fun c => (treeFlatten msgs f c).count x)
        = (childrenOf msgs r).map
            (fun c => if ∃ j, j < f ∧ iterP msgs j x = some c then 1 else 0) := by
      apply List.map_congr_left
      intro c hc
      exact ih ((children_iff hn hr c).mp hc).1 hx
    rw [hmap]
    by_cases hxr : x = r
    · have hnone : ∀ c ∈ childrenOf msgs r,
          ¬∃ j, j < f ∧ iterP msgs j x = some c := by
        rintro c hc ⟨j, _, hjx⟩
        have hpc := ((children_iff hn hr c).mp hc).2
        have hcy : iterP msgs (j + 1) x = some r := by
          rw [iterP_succ, hjx]
          simpa using hpc
        rw [← hxr] at hcy
        exact hac x hx j hcy
      have hex : ∃ j, j < f + 1 ∧ iterP msgs j x = some r :=
        ⟨0, Nat.succ_pos f, by rw [iterP_zero, hxr]⟩
      rw [sum_ite_zero _ _ hnone, if_pos hex]
      simp [hxr]
    · by_cases hreach : ∃ j, j < f + 1 ∧ iterP msgs j x = some r
      · obtain ⟨j, hj, hjx⟩ := hreach
        have hj0 : j ≠ 0 := by
          rintro rfl
          exact hxr (Option.some_inj.mp hjx)
        obtain ⟨j2, rfl⟩ : ∃ j2, j = j2 + 1 := ⟨j - 1, by omega⟩
        rw [iterP_succ] at hjx
        cases hc2 : iterP msgs j2 x with
        | none => rw [hc2] at hjx; cases hjx
        | some c =>
          rw [hc2] at hjx
          have hjx2 : parentOf msgs c = some r := by simpa using hjx
          have hcmem : c ∈ msgs := by
            rcases Nat.eq_zero_or_pos j2 with rfl | hpos
            · have hxc : x = c := Option.some_inj.mp hc2
              exact hxc ▸ hx
            · exact iterP_mem hpos hc2
          have hcchild : c ∈ childrenOf msgs r :=
            (children_iff hn hr c).mpr ⟨hcmem, hjx2⟩
          have hcycr : ∀ j3 j4, j3 < j4 →
              iterP msgs (j3 + 1) x = some r → iterP msgs (j4 + 1) x = some r →
              False := by
            intro j3 j4 hlt e1 e2
            have hcyc := cycle_of_repeat (show j3 + 1 < j4 + 1 by omega) e1 e2
            exact hac r hr (j4 - j3 - 1)
              (by rw [show j4 - j3 - 1 + 1 = j4 + 1 - (j3 + 1) by omega]
                  exact hcyc)
          have huniq : ∀ b ∈ childrenOf msgs r,
              (∃ j3, j3 < f ∧ iterP msgs j3 x = some b) → b = c := by
            rintro b hb ⟨j3, _, hj3x⟩
            by_cases hjj : j3 = j2
            · subst hjj
              rw [hc2] at hj3x
              exact (Option.some_inj.mp hj3x).symm
            · have hb2 := ((children_iff hn hr b).mp hb).2
              have e1 : iterP msgs (j3 + 1) x = some r := by
                rw [iterP_succ, hj3x]
                simpa using hb2
              have e2 : iterP msgs (j2 + 1) x = some r := by
                rw [iterP_succ, hc2]
                simpa using hjx2
              rcases Nat.lt_or_ge j3 j2 with hlt | hge
              · exact absurd (hcycr j3 j2 hlt e1 e2) not_false
              · exact absurd (hcycr j2 j3 (by omega) e2 e1) not_false
          have hsum := sum_ite_unique (childrenOf msgs r)
              (fun b => ∃ j3, j3 < f ∧ iterP msgs j3 x = some b)
              (children_nodup hn r) c hcchild ⟨j2, by omega, hc2⟩ huniq
          have hex2 : ∃ j, j < f + 1 ∧ iterP msgs j x = some r :=
            ⟨j2 + 1, hj, by rw [iterP_succ, hc2]; simpa using hjx2⟩
          rw [hsum, if_pos hex2]
          simp [hxr, Ne.symm hxr]
      · rw [if_neg hreach]
        have hnone : ∀ c ∈ childrenOf msgs r,
            ¬∃ j, j < f ∧ iterP msgs j x = some c := by
          rintro c hc ⟨j, hj, hjx⟩
          exact hreach ⟨j + 1, by omega,
            by rw [iterP_succ, hjx]
               simpa using ((children_iff hn hr c).mp hc).2⟩
        rw [sum_ite_zero _ _ hnone]
        simp [hxr, Ne.symm hxr]

theorem exists_unique_root {msgs : List Message}
    (hn : (msgs.map Message.message_id).Nodup) (hac : AcyclicP msgs)
    {x : Message} (hx : x ∈ msgs) :
    ∃ r, r ∈ rootsOf msgs
      ∧ (∃ j, j < msgs.length + 1 ∧ iterP msgs j x = some r)
      ∧ ∀ r2 ∈ rootsOf msgs,
          (∃ j, j < msgs.length + 1 ∧ iterP msgs j x = some r2) → r2 = r := by
  have hterm : ∃ j, j ≤ msgs.length ∧ iterP msgs j x = none := by
    by_contra hno
    push_neg at hno
    have hdist : ∀ a b, a < b → b ≤ msgs.length →
        iterP msgs a x ≠ iterP msgs b x := by
      intro a b hab hbn heq
      obtain ⟨v, hv⟩ : ∃ v, iterP msgs a x = some v := by
        cases hv : iterP msgs a x with
        | none => exact absurd hv (hno a (by omega))
        | some v => exact ⟨v, rfl⟩
      have hvb : iterP msgs b x = some v := by rw [← heq]; exact hv
      have hcycv := cycle_of_repeat hab hv hvb
      have hvmem : v ∈ msgs := by
        rcases Nat.eq_zero_or_pos a with rfl | hapos
        · exact (Option.some_inj.mp (hv : (some x : Option Message) = some v)) ▸ hx
        · exact iterP_mem hapos hv
      exact hac v hvmem (b - a - 1)
        (by rw [show b - a - 1 + 1 = b - a by omega]; exact hcycv)
    have hlnodup : ((List.range (msgs.length + 1)).map
        (fun a => iterP msgs a x)).Nodup := by
      refine List.Nodup.map_on ?_ (List.nodup_range _)
      intro a ha b hb heq
      rw [List.mem_range] at ha hb
      by_contra hne
      rcases Nat.lt_or_ge a b with h | h
      · exact hdist a b h (by omega) heq
      · exact hdist b a (by omega) (by omega) heq.symm
    have hsub : ∀ y ∈ (List.range (msgs.length + 1)).map
        (fun a => iterP msgs a x), y ∈ msgs.map some := by
      intro y hy
      rw [List.mem_map] at hy
      obtain ⟨a, ha, rfl⟩ := hy
      rw [List.mem_range] at ha
      obtain ⟨v, hv⟩ : ∃ v, iterP msgs a x = some v := by
        cases hv : iterP msgs a x with
        | none => exact absurd hv (hno a (by omega))
        | some v => exact ⟨v, rfl⟩
      rcases Nat.eq_zero_or_pos a with rfl | hapos
      · exact List.mem_map_of_mem some hx
      · rw [hv]
        exact List.mem_map_of_mem some (iterP_mem hapos hv)
    have := nodup_sub_length hlnodup hsub
    rw [List.length_map, List.length_range, List.length_map] at this
    omega
  obtain ⟨jn, hjnle, hjnone⟩ := hterm
  have hPex : ∃ j, iterP msgs j x = none := ⟨jn, hjnone⟩
  have hj0 : iterP msgs (Nat.find hPex) x = none := Nat.find_spec hPex
  have hj0le : Nat.find hPex ≤ jn := Nat.find_min' hPex hjnone
  have hj0pos : 0 < Nat.find hPex := by
    rcases Nat.eq_zero_or_pos (Nat.find hPex) with h0 | h
    · rw [h0] at hj0
      cases hj0
    · exact h
  obtain ⟨r, hr⟩ : ∃ r, iterP msgs (Nat.find hPex - 1) x = some r := by
    cases hv : iterP msgs (Nat.find hPex - 1) x with
    | none => exact absurd hv (Nat.find_min hPex (by omega))
    | some r => exact ⟨r, rfl⟩
  have hrparent : parentOf msgs r = none := by
    have hstep := iterP_succ msgs (Nat.find hPex - 1) x
    rw [show Nat.find hPex - 1 + 1 = Nat.find hPex by omega, hr] at hstep
    rw [hstep] at hj0
    simpa using hj0
  have hrmem : r ∈ msgs := by
    rcases Nat.eq_zero_or_pos (Nat.find hPex - 1) with h0 | h
    · rw [h0] at hr
      exact (Option.some_inj.mp (hr : (some x : Option Message) = some r)) ▸ hx
    · exact iterP_mem h hr
  have hrroot : r ∈ rootsOf msgs :=
    mem_rootsOf.mpr ⟨hrmem, (isRootB_iff_parentOf_none msgs r).mpr hrparent⟩
  refine ⟨r, hrroot, ⟨Nat.find hPex - 1, by omega, hr⟩, ?_⟩
  rintro r2 hr2 ⟨j2, _, hj2x⟩
  have hr2parent : parentOf msgs r2 = none :=
    (isRootB_iff_parentOf_none msgs r2).mp (mem_rootsOf.mp hr2).2
  by_cases hjj : j2 = Nat.find hPex - 1
  · subst hjj
    rw [hr] at hj2x
    exact (Option.some_inj.mp hj2x).symm
  · rcases Nat.lt_or_ge j2 (Nat.find hPex - 1) with hlt | hge
    · have hnone2 : iterP msgs (Nat.find hPex - 1) x = none := by
        rw [show Nat.find hPex - 1 = j2 + (Nat.find hPex - 1 - j2) by omega,
          iterP_add, hj2x]
        simpa using root_iterP_none hr2parent (Nat.find hPex - 1 - j2)
          (by omega)
      rw [hnone2] at hr
      cases hr
    · have hnone2 : iterP msgs j2 x = none := by
        rw [show j2 = (Nat.find hPex - 1) + (j2 - (Nat.find hPex - 1)) by omega,
          iterP_add, hr]
        simpa using root_iterP_none hrparent (j2 - (Nat.find hPex - 1))
          (by omega)
      rw [hnone2] at hj2x
      cases hj2x

theorem count_forest_one {msgs : List Message}
    (hn : (msgs.map Message.message_id).Nodup) (hac : AcyclicP msgs)
    {x : Message} (hx : x ∈ msgs) :
    (forestMessages msgs (msgs.length + 1)).count x = 1 := by
  unfold forestMessages
  rw [count_flatMap]
  have hmap : (rootsOf msgs).map
        (fun r => (treeFlatten msgs (msgs.length + 1) r).count x)
      = (rootsOf msgs).map (fun r =>
          if ∃ j, j < msgs.length + 1 ∧ iterP msgs j x = some r then 1
          else 0) := by
    apply List.map_congr_left
    intro r hr
    exact count_treeFlatten hn hac _ (mem_rootsOf.mp hr).1 hx
  rw [hmap]
  obtain ⟨r, hrroot, hreach, huniq⟩ := exists_unique_root hn hac hx
  exact sum_ite_unique _ _ (rootsOf_nodup hn) r hrroot hreach huniq

/-! ## Linear-chain lemmas for the flat projection -/

theorem mkChain_cons (prev : Option String) (i : String) (rest : List String) :
    mkChain prev (i :: rest) = ⟨i, prev⟩ :: mkChain (some i) rest := rfl

theorem traverse_eq (msgs : List Message) (flat : Bool) (fuel : Nat)
    (node : Message) (par : Option Message) (vd : Nat) :
    traverse msgs flat (fuel + 1) node par vd
      = ⟨node.message_id, vd, decide (0 < (childrenOf msgs node).length),
          (childrenOf msgs node).length⟩
        :: (childrenOf msgs node).flatMap (fun c =>
            traverse msgs flat fuel c (some node)
              (if (childrenOf msgs node).length != 1 || !flat then vd + 1
               else vd)) := by
  simp only [traverse, ite_self]

theorem chain_filter_none :
    ∀ (ids : List String) (prev : Option String) (x : String),
      x ∉ ids → prev ≠ some x →
      (mkChain prev ids).filter (replyCond x) = [] := by
  intro ids
  induction ids with
  | nil => intro prev x _ _; rfl
  | cons i rest ih =>
    intro prev x hx hprev
    rw [mkChain_cons, List.filter_cons]
    have hcond : replyCond x ⟨i, prev⟩ = false := by
      cases prev with
      | none => rfl
      | some p =>
        have hpx : p ≠ x := fun h => hprev (by rw [h])
        simp [replyCond, optTruthy, hpx]
    rw [hcond]
    simp only [Bool.false_eq_true, if_false]
    exact ih (some i) x (fun h => hx (List.mem_cons_of_mem _ h))
      (fun h => hx (by
        have : i = x := Option.some_inj.mp h
        rw [this]
        exact List.mem_cons_self _ _))

theorem chain_filter_head (ids : List String) (x : String)
    (hx : x ≠ "") (hnx : x ∉ ids) :
    (mkChain (some x) ids).filter (replyCond x)
      = (match ids with
         | [] => []
         | i :: _ => [(⟨i, some x⟩ : Message)]) := by
  cases ids with
  | nil => rfl
  | cons i rest =>
    rw [mkChain_cons, List.filter_cons]
    have hcond : replyCond x ⟨i, some x⟩ = true := by
      simp [replyCond, optTruthy, hx]
    rw [hcond]
    simp only [if_true]
    rw [chain_filter_none rest (some i) x
      (fun h => hnx (List.mem_cons_of_mem _ h))
      (fun h => hnx (by
        have : i = x := Option.some_inj.mp h
        rw [this]
        exact List.mem_cons_self _ _))]

theorem endPrev_concat :
    ∀ (A : List String) (prev : Option String) (x : String),
      endPrev prev (A ++ [x]) = some x := by
  intro A
  induction A with
  | nil => intro prev x; rfl
  | cons a rest ih => intro prev x; exact ih (some a) x

theorem endPrev_spec :
    ∀ (A : List String) (prev : Option String),
      endPrev prev A = prev ∨ ∃ l ∈ A, endPrev prev A = some l := by
  intro A
  induction A with
  | nil => intro prev; exact Or.inl rfl
  | cons a rest ih =>
    intro prev
    rcases ih (some a) with h | ⟨l, hl, h⟩
    · exact Or.inr ⟨a, List.mem_cons_self _ _, h⟩
    · exact Or.inr ⟨l, List.mem_cons_of_mem _ hl, h⟩

theorem mkChain_append :
    ∀ (A B : List String) (prev : Option String),
      mkChain prev (A ++ B) = mkChain prev A ++ mkChain (endPrev prev A) B := by
  intro A
  induction A with
  | nil => intro B prev; rfl
  | cons a rest ih =>
    intro B prev
    rw [List.cons_append, mkChain_cons, ih B (some a), mkChain_cons,
      List.cons_append]
    rfl

theorem chain_children (pre post : List String) (x : String)
    (hn : (pre ++ x :: post).Nodup) (hne : ∀ i ∈ pre ++ x :: post, i ≠ "") :
    childrenOf (mkChain none (pre ++ x :: post)) ⟨x, endPrev none pre⟩
      = (match post with
         | [] => []
         | i :: _ => [(⟨i, some x⟩ : Message)]) := by
  have hxpre : x ∉ pre := by
    rw [List.nodup_append] at hn
    intro hmem
    exact hn.2.2 hmem (List.mem_cons_self _ _)
  have hxpost : x ∉ post := by
    rw [List.nodup_append] at hn
    exact (List.nodup_cons.mp hn.2.1).1
  unfold childrenOf
  rw [mkChain_append pre (x :: post) none, mkChain_cons, List.filter_append,
    List.filter_cons]
  have h1 : (mkChain none pre).filter
      (replyCond (⟨x, endPrev none pre⟩ : Message).message_id) = [] :=
    chain_filter_none pre none x hxpre (by simp)
  have hcondmid :
      replyCond (⟨x, endPrev none pre⟩ : Message).message_id
        ⟨x, endPrev none pre⟩ = false := by
    rcases endPrev_spec pre none with h | ⟨l, hl, h⟩
    · show replyCond x ⟨x, endPrev none pre⟩ = false
      rw [h]
      rfl
    · show replyCond x ⟨x, endPrev none pre⟩ = false
      rw [h]
      have hlx : l ≠ x := fun he => hxpre (he ▸ hl)
      simp [replyCond, optTruthy, hlx]
  have h2 := chain_filter_head post x (hne x (by simp)) hxpost
  rw [h1, hcondmid]
  simp only [Bool.false_eq_true, if_false, List.nil_append]
  cases post with
  | nil => simpa using h2
  | cons i t => simpa using h2

theorem chain_hangs :
    ∀ (post pre : List String) (x : String),
      (pre ++ x :: post).Nodup → (∀ i ∈ pre ++ x :: post, i ≠ "") →
      hangs (mkChain none (pre ++ x :: post)) ⟨x, endPrev none pre⟩ post := by
  intro post
  induction post with
  | nil =>
    intro pre x hn hne
    show childrenOf _ _ = []
    rw [chain_children pre [] x hn hne]
  | cons i rest ih =>
    intro pre x hn hne
    refine ⟨⟨i, some x⟩, ?_, rfl, ?_⟩
    · rw [chain_children pre (i :: rest) x hn hne]
    · have hassoc : pre ++ x :: i :: rest = (pre ++ [x]) ++ i :: rest := by
        simp
      have h2 := ih (pre ++ [x]) i (by rw [← hassoc]; exact hn)
        (by rw [← hassoc]; exact hne)
      rw [endPrev_concat] at h2
      rw [hassoc]
      exact h2

theorem chain_elem_shape :
    ∀ (sub : List String) (prev : Option String) (m : Message),
      m ∈ mkChain prev sub →
      (m.in_reply_to = prev ∨ ∃ j ∈ sub, m.in_reply_to = some j)
        ∧ m.message_id ∈ sub := by
  intro sub
  induction sub with
  | nil => intro prev m hm; cases hm
  | cons i rest ih =>
    intro prev m hm
    rw [mkChain_cons] at hm
    rcases List.mem_cons.mp hm with rfl | hm2
    · exact ⟨Or.inl rfl, List.mem_cons_self _ _⟩
    · obtain ⟨hirt, hid⟩ := ih (some i) m hm2
      refine ⟨?_, List.mem_cons_of_mem _ hid⟩
      rcases hirt with h | ⟨j, hj, h⟩
      · exact Or.inr ⟨i, List.mem_cons_self _ _, h⟩
      · exact Or.inr ⟨j, List.mem_cons_of_mem _ hj, h⟩

theorem chain_ids :
    ∀ (sub : List String) (prev : Option String),
      (mkChain prev sub).map Message.message_id = sub := by
  intro sub
  induction sub with
  | nil => intro prev; rfl
  | cons i rest ih =>
    intro prev
    rw [mkChain_cons, List.map_cons, ih (some i)]

theorem chain_roots (i0 : String) (rest : List String)
    (hn : (i0 :: rest).Nodup) (hne : ∀ i ∈ i0 :: rest, i ≠ "") :
    rootsOf (mkChain none (i0 :: rest)) = [⟨i0, none⟩] := by
  unfold rootsOf
  rw [mkChain_cons, List.filter_cons]
  have hroot : isRootB (⟨i0, none⟩ :: mkChain (some i0) rest) ⟨i0, none⟩
      = true := rfl
  rw [hroot]
  simp only [if_true]
  have htail : (mkChain (some i0) rest).filter
      (isRootB (⟨i0, none⟩ :: mkChain (some i0) rest)) = [] := by
    rw [List.filter_eq_nil_iff]
    intro m hm
    obtain ⟨hirt, hid⟩ := chain_elem_shape rest (some i0) m hm
    have hidin : ∀ s : String, s ∈ i0 :: rest →
        idInSet (⟨i0, none⟩ :: mkChain (some i0) rest) (some s) = true := by
      intro s hs
      unfold idInSet
      rw [List.any_eq_true]
      have hmap := chain_ids (i0 :: rest) none
      rw [mkChain_cons] at hmap
      obtain ⟨p, hp, hps⟩ := List.mem_map.mp (hmap ▸ hs)
      exact ⟨p, hp, by simp [hps]⟩
    rcases hirt with h | ⟨j, hj, h⟩
    · have hi0 : i0 ≠ "" := hne i0 (List.mem_cons_self _ _)
      simp [isRootB, optTruthy, h, hi0,
        hidin i0 (List.mem_cons_self _ _)]
    · have hjne : j ≠ "" := hne j (List.mem_cons_of_mem _ hj)
      simp [isRootB, optTruthy, h, hjne,
        hidin j (List.mem_cons_of_mem _ hj)]
  rw [htail]

theorem traverse_hangs (msgs : List Message) :
    ∀ (rest : List String) (m : Message) (par : Option Message)
      (vd fuel : Nat),
      hangs msgs m rest → rest.length + 1 ≤ fuel →
      (traverse msgs true fuel m par vd).map (fun e => (e.mid, e.depth))
        = (m.message_id :: rest).map (fun i => (i, vd)) := by
  intro rest
  induction rest with
  | nil =>
    intro m par vd fuel hh hf
    obtain ⟨f2, rfl⟩ : ∃ f2, fuel = f2 + 1 := ⟨fuel - 1, by omega⟩
    have hch : childrenOf msgs m = [] := hh
    rw [traverse_eq, hch]
    simp
  | cons i rest2 ih =>
    intro m par vd fuel hh hf
    obtain ⟨c, hch, hcid, hrest⟩ := hh
    obtain ⟨f2, rfl⟩ : ∃ f2, fuel = f2 + 1 := ⟨fuel - 1, by omega⟩
    rw [traverse_eq, hch]
    have hih := ih c (some m) vd f2 hrest (by
      have := hf
      simp at this ⊢
      omega)
    have hifeq : traverse msgs true f2 c (some m)
        (if ([c].length != 1 || !true) = true then vd + 1 else vd)
      = traverse msgs true f2 c (some m) vd := rfl
    simp only [List.flatMap_cons, List.flatMap_nil, List.append_nil,
      List.map_cons]
    rw [hifeq, hih, hcid, List.map_cons]

/-- A strict unified-diff pair match is in particular a match of the
`DOTALL`-loosened alternative at the same offset. -/
theorem dashStrict_loose {s : List Char} {p : Nat}
    (h : dashStrictAt s p = true) : dashLooseAt s p = true := by
  unfold dashStrictAt at h
  rw [Bool.and_eq_true, Bool.and_eq_true] at h
  obtain ⟨⟨h1, h2⟩, h3⟩ := h
  cases hnl : firstNlFrom s (p + 3) with
  | none => rw [hnl] at h3; cases h3
  | some j =>
    rw [hnl] at h3
    obtain ⟨hj1, hj2, _⟩ := leastBelow_spec hnl
    unfold dashLooseAt
    simp only [h1, h2, Bool.and_self, Bool.true_and]
    rw [List.any_eq_true]
    refine ⟨j, List.mem_range.mpr hj2, ?_⟩
    rw [Bool.and_eq_true]
    exact ⟨hj1, h3⟩

/-- Any trigger-pattern hit yields a hit of the extraction alternation. -/
theorem bodyPattern_loose {s : List Char}
    (h : bodyHasPatchPattern s = true) :
    ∃ p, p < s.length ∧ looseAt s p = true := by
  unfold bodyHasPatchPattern at h
  rw [Bool.or_eq_true, Bool.or_eq_true] at h
  rcases h with (h | h) | h
  · unfold hasDiffGit at h
    rw [List.any_eq_true] at h
    obtain ⟨p, hp, hf⟩ := h
    exact ⟨p, List.mem_range.mp hp, by simp [looseAt, hf]⟩
  · unfold hasDashPair at h
    rw [List.any_eq_true] at h
    obtain ⟨p, hp, hf⟩ := h
    exact ⟨p, List.mem_range.mp hp, by simp [looseAt, dashStrict_loose hf]⟩
  · unfold hasIndexLine at h
    rw [List.any_eq_true] at h
    obtain ⟨p, hp, hf⟩ := h
    exact ⟨p, List.mem_range.mp hp, by simp [looseAt, hf]⟩

/-! ## Claim theorems -/

/-- C1: the derived thread-root id of a parsed message is the first (oldest)
`references` entry whenever `references` is non-empty - regardless of
`in_reply_to` - else the `in_reply_to` id when that is set (a non-empty id;
the source tests Python truthiness, under which an empty string counts as
unset), else the message's own id. -/
theorem claim1_thread_id (p : ParsedEmail) :
    (∀ r rest, p.references = r :: rest → p.get_thread_id = r)
    ∧ (∀ s, p.references = [] → p.in_reply_to = some s → s ≠ "" →
        p.get_thread_id = s)
    ∧ (p.references = [] → p.in_reply_to = none →
        p.get_thread_id = p.message_id) := by
  refine ⟨?_, ?_, ?_⟩
  · intro r rest h
    simp [ParsedEmail.get_thread_id, h]
  · intro s h1 h2 h3
    simp [ParsedEmail.get_thread_id, h1, h2, h3]
  · intro h1 h2
    simp [ParsedEmail.get_thread_id, h1, h2]

/-- Witness for C1 at concrete messages: a non-empty `references` wins over a
set `in_reply_to`, a set `in_reply_to` wins over the own id, and a message
with no links roots at itself. -/
theorem claim1_thread_id_witness :
    (⟨"m@x", "f@x", "F", "S", 0, "", some "c@x", ["r@x", "s@x"], false, none,
      none⟩ : ParsedEmail).get_thread_id = "r@x"
    ∧ (⟨"m@x", "f@x", "F", "S", 0, "", some "c@x", [], false, none,
      none⟩ : ParsedEmail).get_thread_id = "c@x"
    ∧ (⟨"m@x", "f@x", "F", "S", 0, "", none, [], false, none,
      none⟩ : ParsedEmail).get_thread_id = "m@x" :=
  ⟨(claim1_thread_id _).1 "r@x" ["s@x"] rfl,
   (claim1_thread_id _).2.1 "c@x" rfl rfl (by decide),
   (claim1_thread_id _).2.2 rfl rfl⟩

/-- C4: `parse_email` is total over the collaborator results of any raw
input (the Lean model returns a plain `ParsedEmail`, mirroring the fact that
every fallible call of lines 83-171 is guarded), and it degrades gracefully:
a missing, empty or unparseable `Date` falls back to the current time, a
missing `Message-ID` yields `""`, a missing `Subject` yields `"No Subject"`,
a missing display name falls back to the sender address, and a body whose
decoding fails throughout is the empty string. -/
theorem claim4_parse_email_degrades (raw : RawEmail) (now : Int) :
    ((raw.date_header = none ∨ raw.date_header = some ""
        ∨ raw.date_parsed = none) → (parse_email raw now).date = now)
    ∧ (raw.msgid_header = none → (parse_email raw now).message_id = "")
    ∧ (raw.subject_header = none → (parse_email raw now).subject = "No Subject")
    ∧ (raw.from_name_parsed = "" →
        (parse_email raw now).from_name = raw.from_email_parsed)
    ∧ (raw.is_multipart = true →
        (∀ p ∈ raw.parts, p.content_type = "text/plain" →
          p.content = .failed) →
        (parse_email raw now).body = "")
    ∧ (raw.is_multipart = false → raw.single_content = .failed →
        (parse_email raw now).body = "") := by
  refine ⟨?_, ?_, ?_, ?_, ?_, ?_⟩
  · intro h
    rcases h with h | h | h
    · simp [parse_email, h]
    · simp [parse_email, h]
    · cases hd : raw.date_header with
      | none => simp [parse_email, hd]
      | some s =>
        by_cases hs : s = "" <;> simp [parse_email, hd, hs, h]
  · intro h
    simp only [parse_email, h]
    decide
  · intro h
    simp [parse_email, h]
  · intro h
    simp [parse_email, h]
  · intro hm hall
    simp [parse_email, hm, firstPlainBody_all_failed raw.parts hall]
  · intro hm hc
    simp [parse_email, hm, hc]

/-- Witness for C4 at a thoroughly malformed input: no headers, unparseable
date, undecodable body. -/
theorem claim4_parse_email_degrades_witness :
    (parse_email rawBad 77).date = 77
    ∧ (parse_email rawBad 77).message_id = ""
    ∧ (parse_email rawBad 77).subject = "No Subject"
    ∧ (parse_email rawBad 77).from_name = rawBad.from_email_parsed
    ∧ (parse_email rawBad 77).body = "" :=
  ⟨(claim4_parse_email_degrades rawBad 77).1 (Or.inl rfl),
   (claim4_parse_email_degrades rawBad 77).2.1 rfl,
   (claim4_parse_email_degrades rawBad 77).2.2.1 rfl,
   (claim4_parse_email_degrades rawBad 77).2.2.2.1 rfl,
   (claim4_parse_email_degrades rawBad 77).2.2.2.2.2 rfl rfl⟩

/-- C6 (divergence witness): after `build_thread_tree` on a two-message
chain, the root node has exactly one child yet its `can_flatten` flag is
`false` - `__post_init__` ran on the empty `children` list at construction
time (line 46), before line 57 attached the child, so the flag never equals
"has exactly one child". -/
theorem claim6_can_flatten_stale :
    (childrenOf [⟨"m1@x", none⟩, ⟨"m2@x", some "m1@x"⟩] ⟨"m1@x", none⟩).length
        = 1
    ∧ canFlattenAfterBuild [⟨"m1@x", none⟩, ⟨"m2@x", some "m1@x"⟩]
        ⟨"m1@x", none⟩ = false := by
  decide

/-- C9 (counterexample): the claim asserts that a body with no line starting
with `>` comes back as the unchanged new-content segment, but
`extract_quoted_text` strips the joined halves (line 203): `"hello "` has no
quote line yet returns `"hello"`, not `"hello "`. -/
theorem claim9_counterexample :
    ((splitNl ("hello ".data)).all (fun l => !startsWithAt l ['>'] 0)) = true
    ∧ (extract_quoted_text "hello ").1 ≠ "hello "
    ∧ (extract_quoted_text "hello ").2 = "" := by
  decide

/-- C9 (amended): `extract_quoted_text` scans the lines top-down with a
sticky quote flag: the first line whose stripped form starts with `>` or `|`,
or which matches the `On ... wrote:` shape, and every line after it, form the
quoted segment; the lines before it form the new-content segment; both are
joined with newlines and whitespace-stripped.  In particular a body none of
whose lines triggers quote mode returns its whitespace-stripped self as new
content with an empty quoted segment (and a body whose trailing lines are the
only quote-marked ones returns exactly that trailing block, stripped). -/
theorem claim9_quote_split (body : String) :
    extract_quoted_text body =
      (String.mk (pyStripL (joinNl
          ((splitNl body.data).takeWhile (fun l => !quoteTrigger l)))),
       String.mk (pyStripL (joinNl
          ((splitNl body.data).dropWhile (fun l => !quoteTrigger l)))))
    ∧ ((∀ l ∈ splitNl body.data, quoteTrigger l = false) →
        extract_quoted_text body = (String.mk (pyStripL body.data), "")) := by
  constructor
  · simp only [extract_quoted_text, quoteSplitAux_false]
  · intro h
    have hall : ∀ l ∈ splitNl body.data, (fun l => !quoteTrigger l) l = true := by
      intro l hl
      simp [h l hl]
    obtain ⟨h1, h2⟩ := takeWhile_all _ _ hall
    simp only [extract_quoted_text, quoteSplitAux_false, h1, h2, joinNl_splitNl]
    rfl

/-- Witness for C9 at a quote-free body. -/
theorem claim9_quote_split_witness :
    extract_quoted_text "abc" = ("abc", "") := by
  rw [(claim9_quote_split "abc").2 (by decide)]
  decide

/-- C8 (counterexample): on `exBody` the first match of one of the claim's
three body patterns sits at offset 15 (the `diff --git`), because the `---`
line at offset 0 is not immediately followed by a `+++` line; yet
`patch_content` is the whole body - the extraction regex runs under
`re.DOTALL`, whose loosened `---` alternative already matches at offset 0.
So `patch_content` is not the suffix from the first pattern match. -/
theorem claim8_counterexample :
    firstStrictPatternPos exBody.data = some 15
    ∧ String.mk (exBody.data.drop 15) = "diff --git f"
    ∧ (detectPatch "s" exBody).2 = some exBody
    ∧ exBody ≠ "diff --git f" := by
  decide

/-- C8 (amended): `is_patch` is true iff the body matches `diff --git`, a
`---` line immediately followed by a `+++` line, or `Index:` at line start,
or the upper-cased subject contains `PATCH` (the subject signal alone
suffices); and whenever a body pattern matches, `patch_content` is the suffix
of the body from the leftmost match of the `DOTALL` extraction alternation -
whose unified-diff alternative only demands a later newline-`+++` after the
`---` line, so the suffix can start before the first strict pattern match. -/
theorem claim8_patch_detection (subject body : String) :
    ((detectPatch subject body).1 = true ↔
      bodyHasPatchPattern body.data = true
        ∨ containsSubL (asciiUpper subject).data ("PATCH".data) = true)
    ∧ (bodyHasPatchPattern body.data = true →
        ∃ p, looseAt body.data p = true
          ∧ (∀ q < p, looseAt body.data q = false)
          ∧ (detectPatch subject body).2
              = some (String.mk (body.data.drop p))) := by
  constructor
  · constructor
    · intro h
      simp only [detectPatch] at h
      rw [Bool.or_eq_true, Bool.or_eq_true] at h
      rcases h with h | h | h
      · exact Or.inl h
      · exact Or.inr (containsSub_bracket_patch h)
      · exact Or.inr h
    · intro h
      simp only [detectPatch]
      rcases h with h | h
      · simp [h]
      · simp [h]
  · intro hb
    obtain ⟨p0, hp0, hl0⟩ := bodyPattern_loose hb
    obtain ⟨p, hp⟩ := leastBelow_isSome ⟨p0, hp0, hl0⟩
    obtain ⟨h1, _, h3⟩ := leastBelow_spec hp
    refine ⟨p, h1, h3, ?_⟩
    simp only [detectPatch, hb, if_pos]
    rw [hp]
    rfl

/-- Witness for C8: the subject signal alone marks a diff-less mail as a
patch, and on `exBody` the extraction suffix starts at the loosened match. -/
theorem claim8_patch_detection_witness :
    (detectPatch "Re: [PATCH] fix" "no diff here").1 = true
    ∧ ∃ p, looseAt exBody.data p = true
        ∧ (∀ q < p, looseAt exBody.data q = false)
        ∧ (detectPatch "s" exBody).2 = some (String.mk (exBody.data.drop p)) :=
  ⟨(claim8_patch_detection "Re: [PATCH] fix" "no diff here").1.mpr
      (Or.inr (by decide)),
   (claim8_patch_detection "s" exBody).2 (by decide)⟩

/-- C3: ingestion is idempotent in `message_id`.  For any email whose
extracted message id is non-empty, running the ingestion step twice against
any starting state leaves the second run reporting a duplicate and changing
nothing: the id is the sole deduplication key (lines 225-229), so after the
first run a row with that id exists and the second run short-circuits. -/
theorem claim3_ingest_idempotent (db : DB) (em : InEmail) (mid : String)
    (h1 : get_email_message_id em.msgid_header = some mid) (h2 : mid ≠ "") :
    (ingest_one (ingest_one db em).1 em).2 = .duplicate
    ∧ (ingest_one (ingest_one db em).1 em).1 = (ingest_one db em).1 := by
  have key : ∀ d : DB,
      (d.messages.find? (fun m => m.message_id == mid)).isSome = true →
      ingest_one d em = (d, .duplicate) := by
    intro d hd
    unfold ingest_one
    rw [h1]
    dsimp only
    rw [if_neg h2, if_pos hd]
  have hins : ((ingest_one db em).1.messages.find?
      (fun m => m.message_id == mid)).isSome = true := by
    by_cases hdup :
        (db.messages.find? (fun m => m.message_id == mid)).isSome = true
    · rw [key db hdup]
      exact hdup
    · have hmsgs : ∃ irt tid,
          (ingest_one db em).1.messages = db.messages ++ [⟨mid, irt, tid⟩] := by
        unfold ingest_one
        rw [h1]
        dsimp only
        rw [if_neg h2, if_neg hdup]
        exact ⟨_, _, rfl⟩
      obtain ⟨irt, tid, hmsgs⟩ := hmsgs
      rw [hmsgs, List.find?_isSome]
      exact ⟨⟨mid, irt, tid⟩, List.mem_append_right _ (by simp), by simp⟩
  exact ⟨by rw [key _ hins], by rw [key _ hins]⟩

/-- Witness for C3: ingesting the spec-scenario email twice into an empty
database reports the second run as a duplicate and leaves the state as after
the first run. -/
theorem claim3_ingest_idempotent_witness :
    (ingest_one (ingest_one dbEmpty emScenario).1 emScenario).2 = .duplicate
    ∧ (ingest_one (ingest_one dbEmpty emScenario).1 emScenario).1
        = (ingest_one dbEmpty emScenario).1 :=
  claim3_ingest_idempotent dbEmpty emScenario "new@x" (by decide) (by decide)

/-- C2 (counterexample): a `References` header holding only `<>` derives the
thread root `""`, which differs from the message's own id `m@x`; no thread or
message row exists, yet ingestion creates the new thread rooted at `""` - not
at `m@x` - and records no warning, because the repair guard of line 297 tests
Python truthiness and the empty intended root is falsy. -/
theorem claim2_counterexample :
    get_email_message_id emEmptyRootId.msgid_header = some "m@x"
    ∧ (ingestDerivedRoot emEmptyRootId "m@x").2 = ""
    ∧ "" ≠ "m@x"
    ∧ dbEmpty.threads = [] ∧ dbEmpty.messages = []
    ∧ (ingest_one dbEmpty emEmptyRootId).2 = .inserted
    ∧ ((ingest_one dbEmpty emEmptyRootId).1.threads.map
        (fun t => t.first_message_id)) = [""]
    ∧ (ingest_one dbEmpty emEmptyRootId).1.warnings = 0 := by
  decide

/-- Shape of the root derivation when the derived root differs from the own
id: the intended root is then set and equal to the derived root. -/
theorem ingestDerivedRoot_intended {em : InEmail} {mid root : String}
    (h4 : (ingestDerivedRoot em mid).2 = root) (h5 : root ≠ mid) :
    ingestDerivedRoot em mid = (some root, root) := by
  subst h4
  unfold ingestDerivedRoot at h5 ⊢
  revert h5
  cases get_email_references em.refs_header with
  | cons r rest => intro h5; rfl
  | nil =>
    cases get_email_in_reply_to em.irt_header with
    | some s =>
      intro h5
      dsimp only at h5 ⊢
      by_cases hs : s = ""
      · rw [if_pos hs] at h5
        exact absurd rfl h5
      · rw [if_neg hs]
    | none => intro h5; exact absurd rfl h5

/-- C2 (amended): for every ingested message whose derived thread-root id is
non-empty and differs from its own `message_id`, when no thread is rooted at
the derived id and neither the claimed root nor the `in_reply_to` target is
stored, ingestion creates a brand-new thread whose `first_message_id` is the
message's own id and records a diagnostic warning.  (The non-emptiness
hypothesis is forced by `claim2_counterexample`: a falsy derived root skips
the repair block.) -/
theorem claim2_missing_root_fallback (db : DB) (em : InEmail)
    (mid root : String)
    (h1 : get_email_message_id em.msgid_header = some mid)
    (h2 : mid ≠ "")
    (h3 : db.messages.find? (fun m => m.message_id == mid) = none)
    (h4 : (ingestDerivedRoot em mid).2 = root)
    (h5 : root ≠ mid) (h6 : root ≠ "")
    (h7 : db.threads.find? (fun t => t.first_message_id == root) = none)
    (h8 : db.messages.find? (fun m => m.message_id == root) = none)
    (h9 : match get_email_in_reply_to em.irt_header with
          | some s =>
            s = "" ∨ db.messages.find? (fun m => m.message_id == s) = none
          | none => True) :
    (ingest_one db em).2 = .inserted
    ∧ (∃ t, (ingest_one db em).1.threads = db.threads ++ [t]
        ∧ t.first_message_id = mid)
    ∧ (ingest_one db em).1.warnings = db.warnings + 1 := by
  have hder := ingestDerivedRoot_intended h4 h5
  have hvia : (match get_email_in_reply_to em.irt_header with
      | some irt =>
        if irt = "" then none
        else
          match db.messages.find? (fun m => m.message_id == irt) with
          | some im => db.threads.find? (fun t => t.tid == im.thread_id)
          | none => none
      | none => none) = (none : Option DbThread) := by
    cases hirt : get_email_in_reply_to em.irt_header with
    | none => rfl
    | some s =>
      rw [hirt] at h9
      dsimp only at h9 ⊢
      by_cases hs : s = ""
      · simp [hs]
      · rcases h9 with h9 | h9
        · exact absurd h9 hs
        · simp [hs, h9]
  unfold ingest_one
  rw [h1]
  dsimp only
  rw [if_neg h2, if_neg (show ¬(db.messages.find?
    (fun m => m.message_id == mid)).isSome = true by simp [h3])]
  simp only [hder, h3, h7, h8]
  rw [if_neg (show ¬(root = "" ∨ root = mid) from fun h => h.elim h6 h5)]
  rw [hvia]
  refine ⟨?_, ⟨_, rfl, rfl⟩, ?_⟩ <;> trivial

/-- Witness for C2 (amended) at the spec scenario: `References:
<root@x> <mid@x>`, `In-Reply-To: <mid@x>`, neither stored - the new thread is
rooted at the new message's own id and one warning is recorded. -/
theorem claim2_missing_root_fallback_witness :
    (ingest_one dbEmpty emScenario).2 = .inserted
    ∧ (∃ t, (ingest_one dbEmpty emScenario).1.threads = dbEmpty.threads ++ [t]
        ∧ t.first_message_id = "new@x")
    ∧ (ingest_one dbEmpty emScenario).1.warnings = dbEmpty.warnings + 1 :=
  claim2_missing_root_fallback dbEmpty emScenario "new@x" "root@x"
    (by decide) (by decide) (by decide) (by decide) (by decide) (by decide)
    (by decide) (by decide) (Or.inr rfl)

/-- C5 (counterexample): a message that replies to itself is appended to its
own `children` list, not to `roots`; the claim's "treats each such cycle
member as having no valid parent in the set, i.e., that message appears as a
root of the returned forest" fails - the roots list of the one-message cycle
is empty. -/
theorem claim5_counterexample :
    rootsOf [⟨"a@x", some "a@x"⟩] = []
    ∧ (⟨"a@x", some "a@x"⟩ : Message) ∉ rootsOf [⟨"a@x", some "a@x"⟩] := by
  decide

/-- C5 (amended): on a set of messages with distinct ids containing a reply
cycle, `build_thread_tree` still terminates - the recursive walks from the
returned roots stabilise at fuel `n + 1`, i.e. the depth recursion is bounded
by the message count - but each cycle member is attached as a child inside
the cycle: it is not a root and does not appear anywhere in the forest
reachable from the returned roots. -/
theorem claim5_cycle_dropped (msgs : List Message) (m : Message) (d : Nat)
    (hn : (msgs.map Message.message_id).Nodup)
    (hm : m ∈ msgs) (hc : iterP msgs (d + 1) m = some m) :
    m ∉ rootsOf msgs
    ∧ (∀ f, m ∉ forestMessages msgs f)
    ∧ (∀ f, msgs.length + 1 ≤ f →
        forestMessages msgs f = forestMessages msgs (msgs.length + 1)) := by
  refine ⟨?_, ?_, ?_⟩
  · intro hroot
    have hparent := (isRootB_iff_parentOf_none msgs m).mp
      (mem_rootsOf.mp hroot).2
    have hnone : iterP msgs (d + 1) m = none :=
      root_iterP_none hparent _ (by omega)
    rw [hnone] at hc
    cases hc
  · intro f hmem
    unfold forestMessages at hmem
    rw [List.mem_flatMap] at hmem
    obtain ⟨r, hr, hmr⟩ := hmem
    have hrmem := (mem_rootsOf.mp hr).1
    have hrparent := (isRootB_iff_parentOf_none msgs r).mp
      (mem_rootsOf.mp hr).2
    obtain ⟨j, _, hjm⟩ := mem_treeFlatten hn hrmem hmr
    have hcycr : iterP msgs (d + 1) r = some r := cycle_shift hc hjm
    have hnone : iterP msgs (d + 1) r = none :=
      root_iterP_none hrparent _ (by omega)
    rw [hnone] at hcycr
    cases hcycr
  · intro f hf
    unfold forestMessages
    apply flatMap_congr_mem
    intro r hr
    have hrmem := (mem_rootsOf.mp hr).1
    have hrparent := (isRootB_iff_parentOf_none msgs r).mp
      (mem_rootsOf.mp hr).2
    apply treeFlatten_stable hn f hrmem
    · intro x j hj
      have := iter_reach_root_bound2 hn hrparent x j hj
      omega
    · intro x j hj
      exact iter_reach_root_bound2 hn hrparent x j hj

/-- Witness for C5 at the one-message self-reply cycle. -/
theorem claim5_cycle_dropped_witness :
    (⟨"a@x", some "a@x"⟩ : Message) ∉ rootsOf [⟨"a@x", some "a@x"⟩]
    ∧ (⟨"a@x", some "a@x"⟩ : Message)
        ∉ forestMessages [⟨"a@x", some "a@x"⟩] 2
    ∧ forestMessages [⟨"a@x", some "a@x"⟩] 5
        = forestMessages [⟨"a@x", some "a@x"⟩] 2 := by
  have h := claim5_cycle_dropped [⟨"a@x", some "a@x"⟩] ⟨"a@x", some "a@x"⟩ 0
    (by decide) (by decide) (by decide)
  exact ⟨h.1, h.2.1 2, h.2.2 5 (by decide)⟩

/-- C10: on any input list with pairwise-distinct message ids and no
`in_reply_to` cycle within the set, the forest returned by
`build_thread_tree` contains each input message exactly once: the collection
of nodes reachable from the returned roots is a permutation of the input, and
in particular has the same length (no message dropped or duplicated). -/
theorem claim10_forest_perm (msgs : List Message)
    (hn : (msgs.map Message.message_id).Nodup)
    (hac : acyclicB msgs = true) :
    (forestMessages msgs (msgs.length + 1)).Perm msgs
    ∧ (forestMessages msgs (msgs.length + 1)).length = msgs.length := by
  have hacp := acyclic_of_bounded hac
  have hperm : (forestMessages msgs (msgs.length + 1)).Perm msgs := by
    rw [List.perm_iff_count]
    intro a
    by_cases ha : a ∈ msgs
    · rw [count_forest_one hn hacp ha,
        List.count_eq_one_of_mem (msgs_nodup hn) ha]
    · rw [List.count_eq_zero.mpr ha,
        List.count_eq_zero.mpr (fun hmem => ha (forestMessages_subset hmem))]
  exact ⟨hperm, hperm.length_eq⟩

/-- C7: in the flat projection with flattening enabled, every node of a
linear reply chain gets the visual depth of the chain's head: for any
non-degenerate chain (distinct non-empty ids, each message replying to the
previous one) the whole flat list sits at depth 0 - in particular the
four-message chain A→B→C→D of the claim - and, structurally, the traversal
hands a single child its parent's visual depth while it hands the children of
a node with zero or more than one children the incremented depth. -/
theorem claim7_flat_chain_depths :
    (∀ ids : List String, ids ≠ [] → ids.Nodup → (∀ i ∈ ids, i ≠ "") →
      (thread_to_flat_list (mkChain none ids) true).map
          (fun e => (e.mid, e.depth))
        = ids.map (fun i => (i, 0)))
    ∧ (∀ (msgs : List Message) (fuel vd : Nat) (m c : Message)
        (par : Option Message), childrenOf msgs m = [c] →
        traverse msgs true (fuel + 1) m par vd
          = ⟨m.message_id, vd, true, 1⟩
            :: traverse msgs true fuel c (some m) vd)
    ∧ (∀ (msgs : List Message) (fuel vd : Nat) (m : Message)
        (par : Option Message), (childrenOf msgs m).length ≠ 1 →
        traverse msgs true (fuel + 1) m par vd
          = ⟨m.message_id, vd, decide (0 < (childrenOf msgs m).length),
              (childrenOf msgs m).length⟩
            :: (childrenOf msgs m).flatMap
                (fun ch => traverse msgs true fuel ch (some m) (vd + 1))) := by
  refine ⟨?_, ?_, ?_⟩
  · intro ids hne0 hn hne
    obtain ⟨i0, rest, rfl⟩ : ∃ i0 rest, ids = i0 :: rest := by
      cases ids with
      | nil => exact absurd rfl hne0
      | cons a b => exact ⟨a, b, rfl⟩
    unfold thread_to_flat_list
    rw [chain_roots i0 rest hn hne, List.flatMap_cons, List.flatMap_nil,
      List.append_nil]
    have hh : hangs (mkChain none (i0 :: rest)) ⟨i0, none⟩ rest := by
      have h := chain_hangs rest [] i0 (by simpa using hn) (by simpa using hne)
      simpa using h
    have hlen : (mkChain none (i0 :: rest)).length = rest.length + 1 := by
      have h := congrArg List.length (chain_ids (i0 :: rest) none)
      simpa using h
    have h := traverse_hangs (mkChain none (i0 :: rest)) rest ⟨i0, none⟩ none 0
      ((mkChain none (i0 :: rest)).length + 1) hh (by rw [hlen]; omega)
    simpa using h
  · intro msgs fuel vd m c par hch
    rw [traverse_eq, hch]
    have hifeq : traverse msgs true fuel c (some m)
        (if ([c].length != 1 || !true) = true then vd + 1 else vd)
      = traverse msgs true fuel c (some m) vd := rfl
    simp only [List.flatMap_cons, List.flatMap_nil, List.append_nil]
    rw [hifeq]
    rfl
  · intro msgs fuel vd m par hlen1
    rw [traverse_eq]
    have hif : ((childrenOf msgs m).length != 1 || !true) = true := by
      simp [hlen1]
    simp only [hif, if_true]

/-- Witness for C7 at the claim's concrete inputs: the four-message chain
A→B→C→D all at depth 0; a one-child node handing its child its own depth; a
leaf (zero children) emitting only its own record. -/
theorem claim7_flat_chain_depths_witness :
    (thread_to_flat_list (mkChain none ["a@x", "b@x", "c@x", "d@x"]) true).map
        (fun e => (e.mid, e.depth))
      = [("a@x", 0), ("b@x", 0), ("c@x", 0), ("d@x", 0)]
    ∧ traverse [⟨"a@x", none⟩, ⟨"b@x", some "a@x"⟩] true 3 ⟨"a@x", none⟩
        none 0
      = ⟨"a@x", 0, true, 1⟩
          :: traverse [⟨"a@x", none⟩, ⟨"b@x", some "a@x"⟩] true 2
              ⟨"b@x", some "a@x"⟩ (some ⟨"a@x", none⟩) 0
    ∧ traverse [⟨"a@x", none⟩] true 1 ⟨"a@x", none⟩ none 5
      = [⟨"a@x", 5, false, 0⟩] := by
  refine ⟨?_, ?_, ?_⟩
  · have h := claim7_flat_chain_depths.1 ["a@x", "b@x", "c@x", "d@x"]
      (by decide) (by decide) (by decide)
    rw [h]
    decide
  · have h := claim7_flat_chain_depths.2.1
      [⟨"a@x", none⟩, ⟨"b@x", some "a@x"⟩] 2 0 ⟨"a@x", none⟩
      ⟨"b@x", some "a@x"⟩ none (by decide)
    exact h
  · have h := claim7_flat_chain_depths.2.2 [⟨"a@x", none⟩] 0 5 ⟨"a@x", none⟩
      none (by decide)
    rw [h]
    decide

/-- Witness for C10: a three-message forest (one root with two replies). -/
theorem claim10_forest_perm_witness :
    (forestMessages [⟨"a@x", none⟩, ⟨"b@x", some "a@x"⟩, ⟨"c@x", some "a@x"⟩]
        4).Perm
      [⟨"a@x", none⟩, ⟨"b@x", some "a@x"⟩, ⟨"c@x", some "a@x"⟩]
    ∧ (forestMessages [⟨"a@x", none⟩, ⟨"b@x", some "a@x"⟩,
        ⟨"c@x", some "a@x"⟩] 4).length = 3 :=
  claim10_forest_perm
    [⟨"a@x", none⟩, ⟨"b@x", some "a@x"⟩, ⟨"c@x", some "a@x"⟩]
    (by decide) (by decide)

end GitEw
